import Mathlib

/-!
# The AST of the expression language and its canonical printer

A shallow embedding of `interpreter/language/ast.go`.

* Go interface values (`Expression`, `Statement`) may be nil; the embedding keeps
  that with a `nil` constructor in each of the two types.
* Calling a method through a nil interface value panics; the embedding of a
  method returns `Option`, with `none` for the panic.
* An `Expression` may also be a non-nil interface value that holds a nil
  pointer, as `(*Identifier)(nil)`: it passes the test `!= nil` of
  `ExpressionStatement.String`, and every method called on it panics when it
  reads a field of its receiver. The embedding keeps it as the constructor
  `nilPointer`. A `Statement` that holds a nil pointer panics in both of its
  methods, as the nil `Statement` does, and no code tells the two apart; the
  constructor `Statement.nil` stands for both.
* A Go `string` is embedded as a Lean `String`, `+` and `WriteString` as `++`;
  a `bytes.Buffer` that is written to and then read with `String()` is the
  concatenation of what was written.
* `Range [2]Expression` is embedded as the two fields `Range0` and `Range1`.
-/

namespace strings

/-- Go standard library `strings.Join(elems, sep)`: the elements in order, with
`sep` between each two neighbours; the empty string for no element. -/
def Join : List String → String → String
  | [], _ => ""
  | [a], _ => a
  | a :: b :: rest, sep => a ++ sep ++ Join (b :: rest) sep

end strings

namespace language

/-- Modelled from the spec: the `Token` type is declared outside `ast.go`; the
spec gives it as `{Type: enum, Literal: string}`. The enumeration is kept as
its tag (`Type` is a reserved word, hence `Type_`). -/
structure Token where
  Type_ : Nat
  Literal : String
deriving DecidableEq, Repr

/-- The five node types that implement `Expression`. -/
inductive NodeKind where
  | Identifier
  | PrefixExpression
  | InfixExpression
  | CallExpression
  | BetweenExpression
deriving DecidableEq, Repr

/-- The `Expression` interface with its five implementations (`Identifier`,
`PrefixExpression`, `InfixExpression`, `CallExpression`, `BetweenExpression`),
`nil` for the nil interface value, and `nilPointer k` for the non-nil
interface value that holds a nil pointer of the node type `k`. -/
inductive Expression where
  | nil : Expression
  | nilPointer (kind : NodeKind) : Expression
  | Identifier (Token : Token) (Value : String) : Expression
  | PrefixExpression (Token : Token) (Operator : String) (Right : Expression) : Expression
  | InfixExpression (Token : Token) (Left : Expression) (Operator : String)
      (Right : Expression) : Expression
  | CallExpression (Token : Token) (Function : Expression)
      (Arguments : List Expression) : Expression
  | BetweenExpression (Token : Token) (Left : Expression)
      (Range0 : Expression) (Range1 : Expression) : Expression
deriving Repr

/-- The `Statement` interface with its one implementation `ExpressionStatement`,
and `nil` for the nil interface value. -/
inductive Statement where
  | nil : Statement
  | ExpressionStatement (Token : Token) (Expression : Expression) : Statement
deriving Repr

/-- The root node of the AST. -/
structure DynamoExpression where
  Statement : Statement
deriving Repr

/-! ## Classes of trees -/

mutual
/-- Every node of the tree is a node (neither nil nor a nil pointer), every
`Identifier.Value` passes
`okValue`, and every `Operator` passes `okOperator`. -/
def Expression.wellFormed (okValue okOperator : String → Bool) : Expression → Bool
  | .nil => false
  | .nilPointer _ => false
  | .Identifier _ v => okValue v
  | .PrefixExpression _ op r => okOperator op && r.wellFormed okValue okOperator
  | .InfixExpression _ l op r =>
      l.wellFormed okValue okOperator && okOperator op && r.wellFormed okValue okOperator
  | .CallExpression _ f as =>
      f.wellFormed okValue okOperator && Expression.wellFormedAll okValue okOperator as
  | .BetweenExpression _ l r0 r1 =>
      l.wellFormed okValue okOperator && r0.wellFormed okValue okOperator
        && r1.wellFormed okValue okOperator
/-- Every tree of the list is `wellFormed`. -/
def Expression.wellFormedAll (okValue okOperator : String → Bool) : List Expression → Bool
  | [] => true
  | a :: rest =>
      a.wellFormed okValue okOperator && Expression.wellFormedAll okValue okOperator rest
end

/-- A non-empty string without a whitespace character. -/
def noWhitespace (s : String) : Bool :=
  s.data ≠ [] && s.data.all (fun c => !c.isWhitespace)

/-- A non-empty alphanumeric name (a numeric literal made of digits is one). -/
def isName (s : String) : Bool :=
  s.data ≠ [] && s.data.all Char.isAlphanum

/-- A character of an alphanumeric name or of a numeric literal: a letter, a
digit, the point or a sign. -/
def isValueChar (c : Char) : Bool :=
  c.isAlphanum || c == '.' || c == '-' || c == '+'

/-- A non-empty alphanumeric name or a numeric literal such as `1.5` or `-3`:
a non-empty string of letters, digits, points and signs. Every `isName` string
is one. -/
def isValue (s : String) : Bool :=
  s.data ≠ [] && s.data.all isValueChar

/-- The operators of the language. -/
def operators : List String :=
  ["NOT", "AND", "OR", "=", "<>", "<", "<=", ">", ">="]

/-- An operator of the language. -/
def isOperator (s : String) : Bool :=
  decide (s ∈ operators)

/-- A string without the characters `(` and `)`. -/
def noParen (s : String) : Bool :=
  s.data.all (fun c => c != '(' && c != ')')

mutual
/-- The tree with every `Token` field replaced by one fixed token: two trees
are structurally identical, ignoring `Token` fields, when their images are
equal. -/
def Expression.eraseTokens : Expression → Expression
  | .nil => .nil
  | .nilPointer k => .nilPointer k
  | .Identifier _ v => .Identifier ⟨0, ""⟩ v
  | .PrefixExpression _ op r => .PrefixExpression ⟨0, ""⟩ op r.eraseTokens
  | .InfixExpression _ l op r => .InfixExpression ⟨0, ""⟩ l.eraseTokens op r.eraseTokens
  | .CallExpression _ f as =>
      .CallExpression ⟨0, ""⟩ f.eraseTokens (Expression.eraseTokensAll as)
  | .BetweenExpression _ l r0 r1 =>
      .BetweenExpression ⟨0, ""⟩ l.eraseTokens r0.eraseTokens r1.eraseTokens
/-- The trees of the list, each with its tokens erased. -/
def Expression.eraseTokensAll : List Expression → List Expression
  | [] => []
  | a :: rest => a.eraseTokens :: Expression.eraseTokensAll rest
end

/-- The node is a `BetweenExpression`. -/
def Expression.isBetween : Expression → Bool
  | .BetweenExpression _ _ _ _ => true
  | _ => false

mutual
/-- No `BetweenExpression` is the `Left` of another `BetweenExpression` or the
`Function` of a `CallExpression`. A `BetweenExpression` may be a `Range` bound
of another one. -/
def Expression.betweenGuarded : Expression → Bool
  | .nil => true
  | .nilPointer _ => true
  | .Identifier _ _ => true
  | .PrefixExpression _ _ r => r.betweenGuarded
  | .InfixExpression _ l _ r => l.betweenGuarded && r.betweenGuarded
  | .CallExpression _ f as =>
      !f.isBetween && f.betweenGuarded && Expression.betweenGuardedAll as
  | .BetweenExpression _ l r0 r1 =>
      !l.isBetween && l.betweenGuarded && r0.betweenGuarded && r1.betweenGuarded
/-- Every tree of the list is `betweenGuarded`. -/
def Expression.betweenGuardedAll : List Expression → Bool
  | [] => true
  | a :: rest => a.betweenGuarded && Expression.betweenGuardedAll rest
end

/-! ## The methods -/

/-- The `TokenLiteral()` methods of the expression nodes. Each reads
`Token.Literal` of its receiver, which panics on a nil pointer. -/
def Expression.TokenLiteral : Expression → Option String
  | .nil => none
  | .nilPointer _ => none
  | .Identifier t _ => some t.Literal
  | .PrefixExpression t _ _ => some t.Literal
  | .InfixExpression t _ _ _ => some t.Literal
  | .CallExpression t _ _ => some t.Literal
  | .BetweenExpression t _ _ _ => some t.Literal

/-- The method `ExpressionStatement.TokenLiteral`. -/
def Statement.TokenLiteral : Statement → Option String
  | .nil => none
  | .ExpressionStatement t _ => some t.Literal

/-- The method `DynamoExpression.TokenLiteral`. -/
def DynamoExpression.TokenLiteral (de : DynamoExpression) : Option String :=
  Statement.TokenLiteral de.Statement

mutual
/-- The `String()` methods of the expression nodes. `none` is the panic of a
method call on a nil interface value, or of the first field read (`i.Value`,
`pe.Operator`, `oe.Left`, `ce.Arguments`, `ce.Left`) on a nil pointer. -/
def Expression.String : Expression → Option String
  | .nil => none
  | .nilPointer _ => none
  | .Identifier _ v => some v
  | .PrefixExpression _ op r => do
      let s ← r.String
      pure ("(" ++ op ++ s ++ ")")
  | .InfixExpression _ l op r => do
      let a ← l.String
      let b ← r.String
      pure ("(" ++ a ++ (" " ++ op ++ " ") ++ b ++ ")")
  | .CallExpression _ f as => do
      let args ← Expression.argStrings as
      let g ← f.String
      pure (g ++ "(" ++ strings.Join args ", " ++ ")")
  | .BetweenExpression _ l r0 r1 => do
      let a ← l.String
      let b ← r0.String
      let c ← r1.String
      pure (a ++ " BETWEEN " ++ b ++ " AND " ++ c)
/-- The loop of `CallExpression.String`:
`for _, a := range ce.Arguments { args = append(args, a.String()) }`. -/
def Expression.argStrings : List Expression → Option (List String)
  | [] => some []
  | a :: rest => do
      let s ← a.String
      let ss ← Expression.argStrings rest
      pure (s :: ss)
end

/-- The method `ExpressionStatement.String`: the empty string when
`es.Expression` is the nil interface value, and otherwise what `String()` of
the wrapped expression returns, which for a nil pointer is the panic. -/
def Statement.String : Statement → Option String
  | .nil => none
  | .ExpressionStatement _ .nil => some ""
  | .ExpressionStatement _ e => e.String

/-- The method `DynamoExpression.String`. -/
def DynamoExpression.String (de : DynamoExpression) : Option String :=
  de.Statement.String

/-! ## Example trees -/

/-- An identifier leaf whose token carries its name. -/
def leaf (v : String) : Expression :=
  .Identifier ⟨1, v⟩ v

/-- The tree `(a BETWEEN 1 AND 2) BETWEEN 3 AND 4`: the inner `BETWEEN` is the
`Left` of the outer one. -/
def betweenInLeft : Expression :=
  .BetweenExpression ⟨3, "BETWEEN"⟩
    (.BetweenExpression ⟨3, "BETWEEN"⟩ (leaf "a") (leaf "1") (leaf "2")) (leaf "3") (leaf "4")

/-- The tree `a BETWEEN 1 AND (2 BETWEEN 3 AND 4)`: the inner `BETWEEN` is the
upper bound of the outer one. -/
def betweenInRange : Expression :=
  .BetweenExpression ⟨3, "BETWEEN"⟩ (leaf "a") (leaf "1")
    (.BetweenExpression ⟨3, "BETWEEN"⟩ (leaf "2") (leaf "3") (leaf "4"))

/-- The tree `(a BETWEEN 1 AND f)(x)`: a call whose `Function` is a `BETWEEN`. -/
def betweenAsFunction : Expression :=
  .CallExpression ⟨2, "("⟩
    (.BetweenExpression ⟨3, "BETWEEN"⟩ (leaf "a") (leaf "1") (leaf "f")) [leaf "x"]

/-- The tree `a BETWEEN 1 AND f(x)`: a `BETWEEN` whose upper bound is a call. -/
def betweenOverCall : Expression :=
  .BetweenExpression ⟨3, "BETWEEN"⟩ (leaf "a") (leaf "1")
    (.CallExpression ⟨2, "("⟩ (leaf "f") [leaf "x"])

/-- The tree `NOT f(a, b) AND c BETWEEN (1.5 BETWEEN -3 AND 2) AND 4 OR d = e`,
with the tokens a parser gives its nodes: the lower bound of the outer
`BETWEEN` is itself a `BETWEEN`, and two values are numeric literals that are
not alphanumeric. -/
def sampleTree : Expression :=
  .InfixExpression ⟨0, "OR"⟩
    (.InfixExpression ⟨0, "AND"⟩
      (.PrefixExpression ⟨0, "NOT"⟩ "NOT"
        (.CallExpression ⟨2, "("⟩ (leaf "f") [leaf "a", leaf "b"]))
      "AND"
      (.BetweenExpression ⟨3, "BETWEEN"⟩ (leaf "c")
        (.BetweenExpression ⟨3, "BETWEEN"⟩ (leaf "1.5") (leaf "-3") (leaf "2"))
        (leaf "4")))
    "OR"
    (.InfixExpression ⟨0, "="⟩ (leaf "d") "=" (leaf "e"))

/-- The tree of `sampleTree` with other tokens in its nodes. -/
def sampleTreeRetokened : Expression :=
  .InfixExpression ⟨7, "x"⟩
    (.InfixExpression ⟨7, "y"⟩
      (.PrefixExpression ⟨7, "z"⟩ "NOT"
        (.CallExpression ⟨7, ""⟩ (.Identifier ⟨7, "g"⟩ "f")
          [.Identifier ⟨8, "h"⟩ "a", .Identifier ⟨9, ""⟩ "b"]))
      "AND"
      (.BetweenExpression ⟨7, ""⟩ (.Identifier ⟨7, ""⟩ "c")
        (.BetweenExpression ⟨6, ""⟩ (.Identifier ⟨7, ""⟩ "1.5") (.Identifier ⟨7, ""⟩ "-3")
          (.Identifier ⟨7, ""⟩ "2"))
        (.Identifier ⟨7, ""⟩ "4")))
    "OR"
    (.InfixExpression ⟨7, ""⟩ (.Identifier ⟨7, ""⟩ "d") "=" (.Identifier ⟨7, ""⟩ "e"))

/-- The tree `(NOT a)(b BETWEEN c AND d, e)()`: a call without arguments of a
call whose `Function` is a `PrefixExpression`; the identifier `e` has an empty
value and the infix operator of the last argument is `+`. -/
def nestedCalls : Expression :=
  .CallExpression ⟨2, "("⟩
    (.CallExpression ⟨2, "("⟩
      (.PrefixExpression ⟨0, "NOT"⟩ "NOT" (leaf "a"))
      [.BetweenExpression ⟨3, "BETWEEN"⟩ (leaf "b") (leaf "c") (leaf "d"),
       .InfixExpression ⟨5, "+"⟩ (.Identifier ⟨1, "e"⟩ "") "+" (leaf "x y")])
    []

/-! ## The printed text as a list of characters -/

mutual
/-- The characters `String()` writes for a tree without a nil node (see
`String_data_eq_render`). -/
def Expression.render : Expression → List Char
  | .nil => []
  | .nilPointer _ => []
  | .Identifier _ v => v.data
  | .PrefixExpression _ op r => '(' :: (op.data ++ (r.render ++ [')']))
  | .InfixExpression _ l op r =>
      '(' :: (l.render ++ ' ' :: (op.data ++ ' ' :: (r.render ++ [')'])))
  | .CallExpression _ f as => f.render ++ '(' :: (Expression.renderArgs as ++ [')'])
  | .BetweenExpression _ l r0 r1 =>
      l.render ++ ' ' :: ("BETWEEN".data ++ ' ' :: (r0.render ++ ' ' ::
        ("AND".data ++ ' ' :: r1.render)))
/-- The characters of an argument list: the arguments joined by `", "`. -/
def Expression.renderArgs : List Expression → List Char
  | [] => []
  | a :: rest => a.render ++ Expression.renderRest rest
/-- The characters of the arguments after the first, each preceded by `", "`. -/
def Expression.renderRest : List Expression → List Char
  | [] => []
  | a :: rest => ',' :: ' ' :: (a.render ++ Expression.renderRest rest)
end

/-- One pass over a text from nesting depth `d`: the depth after the text, or
`none` when a `)` has no partner or a separator (a character passing `sep`)
stands outside all parentheses. -/
def scan (sep : Char → Bool) : Nat → List Char → Option Nat
  | d, [] => some d
  | d, c :: cs =>
    if d = 0 ∧ sep c = true then none
    else if c = '(' then scan sep (d + 1) cs
    else if c = ')' then
      match d with
      | 0 => none
      | k + 1 => scan sep k cs
    else scan sep d cs

/-- The text has balanced parentheses and no separator outside them. -/
def Closed (sep : Char → Bool) (l : List Char) : Prop :=
  scan sep 0 l = some 0

/-- The words of a text, joined by single spaces. -/
def unwords : List (List Char) → List Char
  | [] => []
  | [w] => w
  | w :: v :: rest => w ++ ' ' :: unwords (v :: rest)

/-- The nesting of the `BETWEEN` forms of a text: a word, or a word with the
two bounds that follow its `BETWEEN`. -/
inductive WordTree where
  | leaf (w : List Char) : WordTree
  | node (w : List Char) (low : WordTree) (high : WordTree) : WordTree

/-- The words of a nesting, in the order of the text. -/
def WordTree.flatten : WordTree → List (List Char)
  | .leaf w => [w]
  | .node w a b => w :: "BETWEEN".data :: (a.flatten ++ "AND".data :: b.flatten)

/-- The nesting with its first word changed. -/
def WordTree.mapFirst (f : List Char → List Char) : WordTree → WordTree
  | .leaf w => .leaf (f w)
  | .node w a b => .node (f w) a b

/-- The nesting of the `BETWEEN` forms that stand outside all parentheses in
the text of a tree. -/
def Expression.skeleton : Expression → WordTree
  | .BetweenExpression _ l r0 r1 => .node l.render r0.skeleton r1.skeleton
  | e => .leaf e.render

/-- The words of the text of a tree that stand outside all parentheses. -/
def Expression.words (e : Expression) : List (List Char) :=
  e.skeleton.flatten

/-- No character is a separator. -/
def noSep : Char → Bool := fun _ => false

/-- The space as separator. -/
def spaceSep : Char → Bool := fun c => c == ' '

/-- The comma as separator. -/
def commaSep : Char → Bool := fun c => c == ','

/-- A text without parenthesis, comma or space. -/
def PlainWord (w : List Char) : Prop :=
  ∀ c ∈ w, c ≠ '(' ∧ c ≠ ')' ∧ c ≠ ',' ∧ c ≠ ' '

/-- A character that can begin the text of a tree. -/
def startChar (c : Char) : Bool :=
  isValueChar c || c == '('

/-- A text that is non-empty, neither begins nor ends with a space, and has no
two neighbouring spaces. -/
def Tidy (l : List Char) : Prop :=
  l ≠ [] ∧ l.head? ≠ some ' ' ∧ l.getLast? ≠ some ' ' ∧
    l.Chain' (fun a b => ¬ (a = ' ' ∧ b = ' '))

/-! ## Basic facts about the printer -/

/-- Induction over the tree, the arguments of a call included. -/
theorem Expression_induct {P : Expression → Prop}
    (hnil : P .nil)
    (hnp : ∀ k, P (.nilPointer k))
    (hid : ∀ t v, P (.Identifier t v))
    (hpre : ∀ t op r, P r → P (.PrefixExpression t op r))
    (hinf : ∀ t l op r, P l → P r → P (.InfixExpression t l op r))
    (hcall : ∀ t f as, P f → (∀ a ∈ as, P a) → P (.CallExpression t f as))
    (hbtw : ∀ t l r0 r1, P l → P r0 → P r1 → P (.BetweenExpression t l r0 r1))
    (e : Expression) : P e :=
  @Expression.rec P (fun as => ∀ a ∈ as, P a) hnil hnp hid hpre hinf hcall hbtw
    (fun _ h => by cases h)
    (fun a rest ha hrest b hb => by
      rcases List.mem_cons.1 hb with h | h
      · exact h ▸ ha
      · exact hrest b h)
    e

theorem wellFormedAll_iff (okV okO : String → Bool) (as : List Expression) :
    Expression.wellFormedAll okV okO as = true ↔
      ∀ a ∈ as, a.wellFormed okV okO = true := by
  induction as with
  | nil => simp [Expression.wellFormedAll]
  | cons a rest ih => simp [Expression.wellFormedAll, ih]

/-! ## Texts without doubled spaces -/

theorem chain_of_no_space (l : List Char) (h : ∀ c ∈ l, c ≠ ' ') :
    l.Chain' (fun a b => ¬ (a = ' ' ∧ b = ' ')) := by
  induction l with
  | nil => exact List.chain'_nil
  | cons x xs ih =>
    refine List.Chain'.cons' (ih fun c hc => h c (List.mem_cons_of_mem _ hc)) ?_
    intro y _ hxy
    exact h x (List.mem_cons_self _ _) hxy.1

theorem tidy_of_no_space (l : List Char) (hne : l ≠ []) (h : ∀ c ∈ l, c ≠ ' ') : Tidy l := by
  refine ⟨hne, ?_, ?_, chain_of_no_space l h⟩
  · intro hh
    exact h ' ' (List.mem_of_mem_head? hh) rfl
  · intro hh
    exact h ' ' (List.mem_of_mem_getLast? hh) rfl

theorem tidy_append {a b : List Char} (ha : Tidy a) (hb : Tidy b) : Tidy (a ++ b) := by
  obtain ⟨a1, a2, a3, a4⟩ := ha
  obtain ⟨b1, b2, b3, b4⟩ := hb
  refine ⟨by simp [a1], ?_, ?_, ?_⟩
  · rw [List.head?_append_of_ne_nil _ a1]; exact a2
  · rw [List.getLast?_append_of_ne_nil _ b1]; exact b3
  · refine List.Chain'.append a4 b4 ?_
    intro x hx y _ hxy
    exact a3 (hxy.1 ▸ hx)

theorem tidy_space {a b : List Char} (ha : Tidy a) (hb : Tidy b) : Tidy (a ++ ' ' :: b) := by
  obtain ⟨a1, a2, a3, a4⟩ := ha
  obtain ⟨b1, b2, b3, b4⟩ := hb
  refine ⟨by simp, ?_, ?_, ?_⟩
  · rw [List.head?_append_of_ne_nil _ a1]; exact a2
  · rw [List.getLast?_append_of_ne_nil _ (by simp)]
    cases b with
    | nil => exact absurd rfl b1
    | cons y ys => rw [List.getLast?_cons_cons]; exact b3
  · refine List.Chain'.append a4 (List.Chain'.cons' b4 ?_) ?_
    · intro y hy hxy
      exact b2 (hxy.2 ▸ hy)
    · intro x hx y _ hxy
      exact a3 (hxy.1 ▸ hx)

theorem tidy_no_double {l : List Char} (h : Tidy l) (u v : List Char) :
    l ≠ u ++ ' ' :: ' ' :: v := by
  intro hl
  have h4 := h.2.2.2
  rw [hl, List.chain'_split] at h4
  exact (List.chain'_cons.1 h4.2).1 ⟨rfl, rfl⟩

theorem tidy_of_noWhitespace {s : String} (h : noWhitespace s = true) : Tidy s.data := by
  simp only [noWhitespace, Bool.and_eq_true, decide_eq_true_eq, List.all_eq_true,
    Bool.not_eq_true'] at h
  refine tidy_of_no_space _ h.1 ?_
  intro c hc hcs
  have := h.2 c hc
  rw [hcs] at this
  exact absurd this (by decide)

theorem tidy_Join {ss : List String} (hne : ss ≠ []) (h : ∀ s ∈ ss, Tidy s.data) :
    Tidy (strings.Join ss ", ").data := by
  induction ss with
  | nil => exact absurd rfl hne
  | cons a rest ih =>
    cases rest with
    | nil => simpa [strings.Join] using h a (List.mem_cons_self _ _)
    | cons b rest =>
      have hb := ih (by simp) (fun s hs => h s (List.mem_cons_of_mem _ hs))
      have ha := h a (List.mem_cons_self _ _)
      have hc : Tidy [','] := tidy_of_no_space _ (by simp) (by decide)
      have := tidy_space (tidy_append ha hc) hb
      simpa [strings.Join] using this

theorem argStrings_eq_some_iff (as : List Expression) (ss : List String) :
    Expression.argStrings as = some ss ↔ as.map Expression.String = ss.map some := by
  induction as generalizing ss with
  | nil => cases ss <;> simp [Expression.argStrings]
  | cons a rest ih =>
    cases ss with
    | nil =>
      cases h1 : a.String <;> cases h2 : Expression.argStrings rest <;>
        simp [Expression.argStrings, h1, h2]
    | cons s ss =>
      cases h1 : a.String <;> cases h2 : Expression.argStrings rest <;>
        simp [Expression.argStrings, h1, h2, ← ih]

theorem intercalate_go_cons (sep : String) (rest : List String) (acc b : String) :
    String.intercalate.go acc sep (b :: rest)
      = acc ++ sep ++ String.intercalate.go b sep rest := by
  induction rest generalizing acc b with
  | nil => simp [String.intercalate.go]
  | cons c rest ih =>
    rw [String.intercalate.go, ih (acc ++ sep ++ b) c, ih b c]
    simp [String.append_assoc]

/-- Go's `strings.Join` is the library's `String.intercalate`. -/
theorem Join_eq_intercalate (ss : List String) (sep : String) :
    strings.Join ss sep = String.intercalate sep ss := by
  induction ss with
  | nil => rfl
  | cons a rest ih =>
    cases rest with
    | nil => simp [strings.Join, String.intercalate, String.intercalate.go]
    | cons b rest =>
      rw [strings.Join, ih]
      simp [String.intercalate, intercalate_go_cons]

theorem argStrings_of_forall {Q : String → Prop} (as : List Expression)
    (h : ∀ a ∈ as, ∃ s, a.String = some s ∧ Q s) :
    ∃ ss, Expression.argStrings as = some ss ∧ (∀ s ∈ ss, Q s) ∧ (ss = [] ↔ as = []) := by
  induction as with
  | nil => exact ⟨[], rfl, by simp, by simp⟩
  | cons a rest ih =>
    obtain ⟨s, hs, hq⟩ := h a (List.mem_cons_self _ _)
    obtain ⟨ss, hss, hall, _⟩ := ih (fun b hb => h b (List.mem_cons_of_mem _ hb))
    refine ⟨s :: ss, by simp [Expression.argStrings, hs, hss], ?_, by simp⟩
    intro x hx
    rcases List.mem_cons.1 hx with hx | hx
    · exact hx ▸ hq
    · exact hall x hx

/-- The text of a tree whose values and operators are non-empty and free of
whitespace is tidy. -/
theorem String_tidy (e : Expression) :
    e.wellFormed noWhitespace noWhitespace = true → ∃ s, e.String = some s ∧ Tidy s.data := by
  have hopen : Tidy ['('] := tidy_of_no_space _ (by simp) (by decide)
  have hclose : Tidy [')'] := tidy_of_no_space _ (by simp) (by decide)
  induction e using Expression_induct with
  | hnil => simp [Expression.wellFormed]
  | hnp k => simp [Expression.wellFormed]
  | hid t v =>
    intro h
    exact ⟨v, rfl, tidy_of_noWhitespace h⟩
  | hpre t op r ih =>
    intro h
    simp only [Expression.wellFormed, Bool.and_eq_true] at h
    obtain ⟨s, hs, hts⟩ := ih h.2
    refine ⟨"(" ++ op ++ s ++ ")", by simp [Expression.String, hs], ?_⟩
    have := tidy_append (tidy_append (tidy_append hopen (tidy_of_noWhitespace h.1)) hts) hclose
    simpa using this
  | hinf t l op r ihl ihr =>
    intro h
    simp only [Expression.wellFormed, Bool.and_eq_true] at h
    obtain ⟨a, ha, hta⟩ := ihl h.1.1
    obtain ⟨b, hb, htb⟩ := ihr h.2
    refine ⟨"(" ++ a ++ (" " ++ op ++ " ") ++ b ++ ")", by simp [Expression.String, ha, hb], ?_⟩
    have := tidy_append (tidy_space (tidy_space (tidy_append hopen hta)
      (tidy_of_noWhitespace h.1.2)) htb) hclose
    simpa using this
  | hcall t f as ihf ihas =>
    intro h
    simp only [Expression.wellFormed, Bool.and_eq_true, wellFormedAll_iff] at h
    obtain ⟨g, hg, htg⟩ := ihf h.1
    obtain ⟨ss, hss, hall, hnil⟩ :=
      @argStrings_of_forall (fun s => Tidy s.data) as (fun a ha => ihas a ha (h.2 a ha))
    refine ⟨g ++ "(" ++ strings.Join ss ", " ++ ")", by simp [Expression.String, hg, hss], ?_⟩
    by_cases hne : ss = []
    · subst hne
      have := tidy_append (tidy_append htg hopen) hclose
      simpa [strings.Join] using this
    · have := tidy_append (tidy_append (tidy_append htg hopen) (tidy_Join hne hall)) hclose
      simpa using this
  | hbtw t l r0 r1 ihl ih0 ih1 =>
    intro h
    simp only [Expression.wellFormed, Bool.and_eq_true] at h
    obtain ⟨a, ha, hta⟩ := ihl h.1.1
    obtain ⟨b, hb, htb⟩ := ih0 h.1.2
    obtain ⟨c, hc, htc⟩ := ih1 h.2
    refine ⟨a ++ " BETWEEN " ++ b ++ " AND " ++ c, by simp [Expression.String, ha, hb, hc], ?_⟩
    have hB : Tidy "BETWEEN".data := tidy_of_no_space _ (by simp) (by decide)
    have hA : Tidy "AND".data := tidy_of_no_space _ (by simp) (by decide)
    have := tidy_space (tidy_space (tidy_space (tidy_space hta hB) htb) hA) htc
    simpa using this

/-! ## Nesting depth and separators -/

theorem scan_append (sep : Char → Bool) (u w : List Char) (d : Nat) :
    scan sep d (u ++ w) = (scan sep d u).bind (fun k => scan sep k w) := by
  induction u generalizing d with
  | nil => simp [scan]
  | cons c cs ih =>
    simp only [List.cons_append, scan]
    split
    · rfl
    · split
      · exact ih _
      · split
        · cases d with
          | zero => rfl
          | succ k => exact ih _
        · exact ih _

/-- Inside a parenthesis the separators do not matter. -/
theorem scan_lift (sep sep2 : Char → Bool) (u : List Char) (d k n : Nat)
    (h : scan sep d u = some k) : scan sep2 (d + n + 1) u = some (k + n + 1) := by
  induction u generalizing d with
  | nil =>
    simp only [scan, Option.some.injEq] at h
    simp [scan, h]
  | cons c cs ih =>
    simp only [scan] at h ⊢
    rw [if_neg (by omega)]
    split at h
    · exact absurd h (by simp)
    · split at h
      · rename_i hc
        rw [if_pos hc]
        have := ih (d + 1) h
        rwa [show d + 1 + n + 1 = d + n + 1 + 1 by omega] at this
      · rename_i hc
        rw [if_neg hc]
        split at h
        · rename_i hc2
          rw [if_pos hc2]
          cases d with
          | zero => exact absurd h (by simp)
          | succ j =>
            have := ih j h
            rw [show j + 1 + n = j + n + 1 by omega]
            exact this
        · rename_i hc2
          rw [if_neg hc2]
          exact ih d h

/-- Characters other than parentheses and separators leave the depth unchanged. -/
theorem scan_plain (sep : Char → Bool) (w : List Char) (d : Nat)
    (h : ∀ c ∈ w, c ≠ '(' ∧ c ≠ ')' ∧ (d = 0 → sep c = false)) : scan sep d w = some d := by
  induction w with
  | nil => rfl
  | cons c cs ih =>
    obtain ⟨h1, h2, h3⟩ := h c (List.mem_cons_self _ _)
    simp only [scan]
    rw [if_neg (by intro hh; have := h3 hh.1; simp [hh.2] at this), if_neg h1, if_neg h2]
    exact ih (fun x hx => h x (List.mem_cons_of_mem _ hx))

theorem closed_append {sep : Char → Bool} {u w : List Char} (hu : Closed sep u)
    (hw : Closed sep w) : Closed sep (u ++ w) := by
  unfold Closed at *
  rw [scan_append, hu]
  exact hw

/-- A parenthesized text is closed when its inside is balanced. -/
theorem closed_parens (sep2 : Char → Bool) {sep : Char → Bool} {v : List Char}
    (hv : Closed sep v)
    (hs : sep2 '(' = false) : Closed sep2 ('(' :: (v ++ [')'])) := by
  unfold Closed at *
  have h1 := scan_lift sep sep2 v 0 0 0 hv
  simp only [scan, hs, and_false, if_false, if_true]
  rw [scan_append, h1]
  simp [scan, hs]

/-- A closed text followed by a separator is not closed. -/
theorem not_closed_sep {sep : Char → Bool} {u : List Char} (hu : Closed sep u)
    {c : Char} (hc : sep c = true) (w : List Char) : ¬ Closed sep (u ++ c :: w) := by
  unfold Closed at *
  rw [scan_append, hu]
  simp [scan, hc]

/-- The first separator outside the parentheses is at one place only. -/
theorem closed_sep_unique {sep : Char → Bool} {u u2 w w2 : List Char} {c c2 : Char}
    (hu : Closed sep u) (hu2 : Closed sep u2) (hc : sep c = true) (hc2 : sep c2 = true)
    (h : u ++ c :: w = u2 ++ c2 :: w2) : u = u2 ∧ c = c2 ∧ w = w2 := by
  rcases List.append_eq_append_iff.1 h with ⟨t, ht, ht2⟩ | ⟨t, ht, ht2⟩
  · cases t with
    | nil =>
      simp only [List.nil_append, List.cons.injEq] at ht2
      simp only [List.append_nil] at ht
      exact ⟨ht.symm, ht2.1, ht2.2⟩
    | cons x t =>
      simp only [List.cons_append, List.cons.injEq] at ht2
      rw [ht, ← ht2.1] at hu2
      exact absurd hu2 (not_closed_sep hu hc t)
  · cases t with
    | nil =>
      simp only [List.nil_append, List.cons.injEq] at ht2
      simp only [List.append_nil] at ht
      exact ⟨ht, ht2.1.symm, ht2.2.symm⟩
    | cons x t =>
      simp only [List.cons_append, List.cons.injEq] at ht2
      rw [ht, ← ht2.1] at hu
      exact absurd hu (not_closed_sep hu2 hc2 t)

/-- The partner of a closing parenthesis is at one place only. -/
theorem open_paren_unique {sep : Char → Bool} {u u2 v v2 : List Char}
    (hv : Closed sep v) (hv2 : Closed sep v2)
    (h : u ++ '(' :: v = u2 ++ '(' :: v2) : u = u2 ∧ v = v2 := by
  have key : ∀ (a b : List Char), Closed sep a → Closed sep b →
      ∀ t : List Char, a = t ++ '(' :: b → False := by
    intro a b ha hb t hab
    unfold Closed at ha hb
    rw [hab, scan_append] at ha
    cases hk : scan sep 0 t with
    | none => simp [hk] at ha
    | some k =>
      simp only [hk, Option.some_bind, scan] at ha
      have hl := scan_lift sep sep b 0 0 k hb
      split at ha
      · exact absurd ha (by simp)
      · simp only [if_true] at ha
        rw [show 0 + k + 1 = k + 1 by omega] at hl
        rw [hl] at ha
        simp at ha
  rcases List.append_eq_append_iff.1 h with ⟨t, ht, ht2⟩ | ⟨t, ht, ht2⟩
  · cases t with
    | nil =>
      simp only [List.nil_append, List.cons.injEq, true_and] at ht2
      simp only [List.append_nil] at ht
      exact ⟨ht.symm, ht2⟩
    | cons x t =>
      simp only [List.cons_append, List.cons.injEq] at ht2
      exact (key v v2 hv hv2 t ht2.2).elim
  · cases t with
    | nil =>
      simp only [List.nil_append, List.cons.injEq, true_and] at ht2
      simp only [List.append_nil] at ht
      exact ⟨ht, ht2.symm⟩
    | cons x t =>
      simp only [List.cons_append, List.cons.injEq] at ht2
      exact (key v2 v hv2 hv t ht2.2).elim

/-- Words that are closed for the space are determined by their joined text. -/
theorem unwords_injective (sep : Char → Bool) (hs : sep ' ' = true) :
    ∀ (L M : List (List Char)), L ≠ [] → M ≠ [] →
      (∀ w ∈ L, Closed sep w) → (∀ w ∈ M, Closed sep w) →
      unwords L = unwords M → L = M := by
  intro L
  induction L with
  | nil => intro M h; exact absurd rfl h
  | cons a L ih =>
    intro M _ hM hL hM2 h
    cases M with
    | nil => exact absurd rfl hM
    | cons b M =>
      have ha := hL a (List.mem_cons_self _ _)
      have hb := hM2 b (List.mem_cons_self _ _)
      cases L with
      | nil =>
        cases M with
        | nil => simpa [unwords] using h
        | cons b2 M =>
          simp only [unwords] at h
          rw [h] at ha
          exact absurd ha (not_closed_sep hb hs _)
      | cons a2 L =>
        cases M with
        | nil =>
          simp only [unwords] at h
          rw [← h] at hb
          exact absurd hb (not_closed_sep ha hs _)
        | cons b2 M =>
          rw [unwords, unwords] at h
          obtain ⟨h1, _, h3⟩ := closed_sep_unique ha hb hs hs h
          have := ih (b2 :: M) (by simp) (by simp)
            (fun w hw => hL w (List.mem_cons_of_mem _ hw))
            (fun w hw => hM2 w (List.mem_cons_of_mem _ hw)) h3
          rw [h1, this]

/-! ## The text of a tree is closed -/

theorem plainWord_of_isValue {v : String} (h : isValue v = true) : PlainWord v.data := by
  simp only [isValue, Bool.and_eq_true, decide_eq_true_eq, List.all_eq_true] at h
  intro c hc
  have := h.2 c hc
  refine ⟨?_, ?_, ?_, ?_⟩ <;> (intro hcc; rw [hcc] at this; exact absurd this (by decide))

theorem plainWord_of_isOperator {op : String} (h : isOperator op = true) :
    PlainWord op.data := by
  simp only [isOperator, operators, decide_eq_true_eq, List.mem_cons, List.mem_singleton,
    List.mem_nil_iff, or_false] at h
  rcases h with h | h | h | h | h | h | h | h | h <;> subst h <;>
    (unfold PlainWord; decide)

theorem closed_of_plainWord {sep : Char → Bool} {w : List Char} (hw : PlainWord w)
    (hsep : ∀ c, sep c = true → c = ' ' ∨ c = ',') : Closed sep w := by
  refine scan_plain sep w 0 ?_
  intro c hc
  obtain ⟨h1, h2, h3, h4⟩ := hw c hc
  refine ⟨h1, h2, fun _ => ?_⟩
  cases hs : sep c with
  | false => rfl
  | true => rcases hsep c hs with h | h <;> contradiction

theorem closed_space (sep : Char → Bool) {w : List Char} (hs : sep ' ' = false)
    (hw : Closed sep w) : Closed sep (' ' :: w) := by
  unfold Closed at *
  simp [scan, hs, hw]

theorem closed_renderArgs (as : List Expression)
    (h : ∀ a ∈ as, Closed noSep a.render) :
    Closed noSep (Expression.renderArgs as) := by
  have rest : ∀ bs : List Expression, (∀ a ∈ bs, Closed noSep a.render) →
      Closed noSep (Expression.renderRest bs) := by
    intro bs
    induction bs with
    | nil => intro _; rfl
    | cons b bs ih =>
      intro hb
      have h1 := hb b (List.mem_cons_self _ _)
      have h2 := ih (fun a ha => hb a (List.mem_cons_of_mem _ ha))
      have h3 : Closed noSep (',' :: ' ' :: (b.render ++ Expression.renderRest bs)) := by
        have := closed_append h1 h2
        unfold Closed at *
        simpa [scan, noSep] using this
      simpa [Expression.renderRest] using h3
  cases as with
  | nil => rfl
  | cons a as =>
    rw [Expression.renderArgs]
    exact closed_append (h a (List.mem_cons_self _ _))
      (rest as (fun b hb => h b (List.mem_cons_of_mem _ hb)))

theorem betweenGuardedAll_iff (as : List Expression) :
    Expression.betweenGuardedAll as = true ↔ ∀ a ∈ as, a.betweenGuarded = true := by
  induction as with
  | nil => simp [Expression.betweenGuardedAll]
  | cons a rest ih => simp [Expression.betweenGuardedAll, ih]

/-- The text of a tree of the class is balanced and has no comma outside its
parentheses; unless the tree is a `BetweenExpression`, it has no space there
either. -/
theorem closed_render (e : Expression) :
    e.wellFormed isValue isOperator = true → e.betweenGuarded = true →
    ∀ sep : Char → Bool, (∀ c, sep c = true → c = ' ' ∨ c = ',') →
      (e.isBetween = true → sep ' ' = false) → Closed sep e.render := by
  have hno : ∀ c, noSep c = true → c = ' ' ∨ c = ',' := by intro c h; simp [noSep] at h
  have hpar : ∀ sep : Char → Bool, (∀ c, sep c = true → c = ' ' ∨ c = ',') →
      sep '(' = false := by
    intro sep hsep
    cases hs : sep '(' with
    | false => rfl
    | true => rcases hsep _ hs with h | h <;> exact absurd h (by decide)
  induction e using Expression_induct with
  | hnil => simp [Expression.wellFormed]
  | hnp k => simp [Expression.wellFormed]
  | hid t v =>
    intro hw _ sep hsep _
    exact closed_of_plainWord (plainWord_of_isValue hw) hsep
  | hpre t op r ih =>
    intro hw hg sep hsep _
    simp only [Expression.wellFormed, Bool.and_eq_true] at hw
    simp only [Expression.betweenGuarded] at hg
    have hr := ih hw.2 hg noSep hno (fun _ => rfl)
    have hin := closed_append (closed_of_plainWord (plainWord_of_isOperator hw.1) hno) hr
    have := closed_parens sep hin (hpar sep hsep)
    simpa [Expression.render] using this
  | hinf t l op r ihl ihr =>
    intro hw hg sep hsep _
    simp only [Expression.wellFormed, Bool.and_eq_true] at hw
    simp only [Expression.betweenGuarded, Bool.and_eq_true] at hg
    have hl := ihl hw.1.1 hg.1 noSep hno (fun _ => rfl)
    have hr := ihr hw.2 hg.2 noSep hno (fun _ => rfl)
    have hin := closed_append hl (closed_space noSep rfl
      (closed_append (closed_of_plainWord (plainWord_of_isOperator hw.1.2) hno)
        (closed_space noSep rfl hr)))
    have := closed_parens sep hin (hpar sep hsep)
    simpa [Expression.render] using this
  | hcall t f as ihf ihas =>
    intro hw hg sep hsep _
    simp only [Expression.wellFormed, Bool.and_eq_true, wellFormedAll_iff] at hw
    simp only [Expression.betweenGuarded, Bool.and_eq_true, betweenGuardedAll_iff,
      Bool.not_eq_true'] at hg
    have hf := ihf hw.1 hg.1.2 sep hsep (fun h => by rw [hg.1.1] at h; exact absurd h (by simp))
    have hargs := closed_renderArgs as
      (fun a ha => ihas a ha (hw.2 a ha) (hg.2 a ha) noSep hno (fun _ => rfl))
    have := closed_append hf (closed_parens sep hargs (hpar sep hsep))
    simpa [Expression.render] using this
  | hbtw t l r0 r1 ihl ih0 ih1 =>
    intro hw hg sep hsep hb
    simp only [Expression.wellFormed, Bool.and_eq_true] at hw
    simp only [Expression.betweenGuarded, Bool.and_eq_true, Bool.not_eq_true'] at hg
    have hs : sep ' ' = false := hb rfl
    have hl := ihl hw.1.1 hg.1.1.2 sep hsep
      (fun h => by rw [hg.1.1.1] at h; exact absurd h (by simp))
    have h0 := ih0 hw.1.2 hg.1.2 sep hsep (fun _ => hs)
    have h1 := ih1 hw.2 hg.2 sep hsep (fun _ => hs)
    have hB : PlainWord "BETWEEN".data := by unfold PlainWord; decide
    have hA : PlainWord "AND".data := by unfold PlainWord; decide
    exact closed_append hl (closed_space sep hs (closed_append (closed_of_plainWord hB hsep)
      (closed_space sep hs (closed_append h0 (closed_space sep hs
        (closed_append (closed_of_plainWord hA hsep) (closed_space sep hs h1)))))))

/-! ## Reading a text back -/

theorem spaceSep_only : ∀ c, spaceSep c = true → c = ' ' ∨ c = ',' := by
  intro c h
  left
  simpa [spaceSep] using h

theorem commaSep_only : ∀ c, commaSep c = true → c = ' ' ∨ c = ',' := by
  intro c h
  right
  simpa [commaSep] using h

theorem noSep_only : ∀ c, noSep c = true → c = ' ' ∨ c = ',' := by
  intro c h
  simp [noSep] at h

/-- The text of a tree begins with a character of a value or with `(`. -/
theorem render_start (e : Expression) :
    e.wellFormed isValue isOperator = true →
      ∃ c rest, e.render = c :: rest ∧ startChar c = true := by
  induction e using Expression_induct with
  | hnil => simp [Expression.wellFormed]
  | hnp k => simp [Expression.wellFormed]
  | hid t v =>
    intro hw
    simp only [Expression.wellFormed, isValue, Bool.and_eq_true, decide_eq_true_eq,
      List.all_eq_true] at hw
    cases hv : v.data with
    | nil => exact absurd hv hw.1
    | cons c rest =>
      refine ⟨c, rest, by simp [Expression.render, hv], ?_⟩
      have := hw.2 c (by simp [hv])
      simp [startChar, this]
  | hpre t op r _ => intro _; exact ⟨'(', _, rfl, by decide⟩
  | hinf t l op r _ _ => intro _; exact ⟨'(', _, rfl, by decide⟩
  | hcall t f as ihf _ =>
    intro hw
    simp only [Expression.wellFormed, Bool.and_eq_true] at hw
    obtain ⟨c, rest, h, hc⟩ := ihf hw.1
    exact ⟨c, _, by rw [Expression.render, h]; rfl, hc⟩
  | hbtw t l r0 r1 ihl _ _ =>
    intro hw
    simp only [Expression.wellFormed, Bool.and_eq_true] at hw
    obtain ⟨c, rest, h, hc⟩ := ihl hw.1.1
    exact ⟨c, _, by rw [Expression.render, h]; rfl, hc⟩

theorem unwords_append (L M : List (List Char)) (hL : L ≠ []) (hM : M ≠ []) :
    unwords (L ++ M) = unwords L ++ ' ' :: unwords M := by
  induction L with
  | nil => exact absurd rfl hL
  | cons a L ih =>
    cases L with
    | nil =>
      cases M with
      | nil => exact absurd rfl hM
      | cons b M => simp [unwords]
    | cons a2 L =>
      have := ih (by simp)
      simp only [List.cons_append] at this ⊢
      rw [unwords, this, unwords]
      simp

theorem unwords_cons (w : List Char) (L : List (List Char)) (hL : L ≠ []) :
    unwords (w :: L) = w ++ ' ' :: unwords L := by
  cases L with
  | nil => exact absurd rfl hL
  | cons v L => rfl

theorem flatten_ne_nil (t : WordTree) : t.flatten ≠ [] := by
  cases t <;> simp [WordTree.flatten]

/-- A nesting is determined by its words, also when other words follow that do
not begin with `BETWEEN`. -/
theorem flatten_injective (t1 : WordTree) :
    ∀ (t2 : WordTree) (s1 s2 : List (List Char)),
      t1.flatten ++ s1 = t2.flatten ++ s2 →
      (∀ r, s1 ≠ "BETWEEN".data :: r) → (∀ r, s2 ≠ "BETWEEN".data :: r) →
      t1 = t2 ∧ s1 = s2 := by
  induction t1 with
  | leaf w =>
    intro t2 s1 s2 h f1 f2
    cases t2 with
    | leaf w2 =>
      simp only [WordTree.flatten, List.cons_append, List.nil_append, List.cons.injEq] at h
      exact ⟨by rw [h.1], h.2⟩
    | node w2 a2 b2 =>
      simp only [WordTree.flatten, List.cons_append, List.nil_append, List.cons.injEq] at h
      exact absurd h.2 (f1 _)
  | node w a b iha ihb =>
    intro t2 s1 s2 h f1 f2
    cases t2 with
    | leaf w2 =>
      simp only [WordTree.flatten, List.cons_append, List.nil_append, List.cons.injEq] at h
      exact absurd h.2.symm (f2 _)
    | node w2 a2 b2 =>
      simp only [WordTree.flatten, List.cons_append, List.append_assoc, List.cons.injEq,
        true_and] at h
      have hand : ∀ (x : List (List Char)) r, "AND".data :: x ≠ "BETWEEN".data :: r := by
        intro x r hx
        exact absurd (List.cons.inj hx).1 (by decide)
      obtain ⟨ha, hrest⟩ := iha a2 _ _ h.2 (hand _) (hand _)
      obtain ⟨hb, hs⟩ := ihb b2 s1 s2 (List.cons.inj hrest).2 f1 f2
      exact ⟨by rw [h.1, ha, hb], hs⟩

theorem flatten_mapFirst (f : List Char → List Char) (t : WordTree) (w : List Char)
    (ws : List (List Char)) (h : t.flatten = w :: ws) :
    (t.mapFirst f).flatten = f w :: ws := by
  cases t with
  | leaf v =>
    simp only [WordTree.flatten, List.cons.injEq] at h
    simp [WordTree.mapFirst, WordTree.flatten, h.1, h.2]
  | node v a b =>
    simp only [WordTree.flatten, List.cons.injEq] at h
    simp [WordTree.mapFirst, WordTree.flatten, h.1, h.2]

theorem skeleton_of_not_between (e : Expression) (h : e.isBetween = false) :
    e.skeleton = .leaf e.render := by
  cases e <;> first | rfl | simp [Expression.isBetween] at h

theorem words_of_not_between (e : Expression) (h : e.isBetween = false) :
    e.words = [e.render] := by
  rw [Expression.words, skeleton_of_not_between e h, WordTree.flatten]

theorem words_betweenExpression (t : Token) (l r0 r1 : Expression) :
    (Expression.BetweenExpression t l r0 r1).words
      = l.render :: "BETWEEN".data :: (r0.words ++ "AND".data :: r1.words) := rfl

theorem words_ne_nil (e : Expression) : e.words ≠ [] :=
  flatten_ne_nil _

/-- The text of a tree is its words joined by single spaces. -/
theorem render_eq_unwords (e : Expression) : e.render = unwords e.words := by
  induction e using Expression_induct with
  | hnil => rfl
  | hnp k => rfl
  | hid t v => rfl
  | hpre t op r _ => rfl
  | hinf t l op r _ _ => rfl
  | hcall t f as _ _ => rfl
  | hbtw t l r0 r1 _ ih0 ih1 =>
    rw [words_betweenExpression, unwords_cons _ _ (by simp), unwords_cons _ _ (by simp),
      unwords_append _ _ (words_ne_nil r0) (by simp),
      unwords_cons _ _ (words_ne_nil r1), ← ih0, ← ih1]
    rfl

/-- The words of the text of a tree have no space outside their parentheses. -/
theorem words_closed (e : Expression) :
    e.wellFormed isValue isOperator = true → e.betweenGuarded = true →
      ∀ w ∈ e.words, Closed spaceSep w := by
  have hB : PlainWord "BETWEEN".data := by unfold PlainWord; decide
  have hA : PlainWord "AND".data := by unfold PlainWord; decide
  have other : ∀ x : Expression, x.isBetween = false →
      x.wellFormed isValue isOperator = true → x.betweenGuarded = true →
      ∀ w ∈ x.words, Closed spaceSep w := by
    intro x hb hw hg w hw2
    rw [words_of_not_between x hb, List.mem_singleton] at hw2
    rw [hw2]
    exact closed_render x hw hg spaceSep spaceSep_only (fun h => by rw [hb] at h; cases h)
  induction e using Expression_induct with
  | hnil => simp [Expression.wellFormed]
  | hnp k => simp [Expression.wellFormed]
  | hid t v => exact other _ rfl
  | hpre t op r _ => exact other _ rfl
  | hinf t l op r _ _ => exact other _ rfl
  | hcall t f as _ _ => exact other _ rfl
  | hbtw t l r0 r1 _ ih0 ih1 =>
    intro hw hg w hw2
    simp only [Expression.wellFormed, Bool.and_eq_true] at hw
    simp only [Expression.betweenGuarded, Bool.and_eq_true, Bool.not_eq_true'] at hg
    rw [words_betweenExpression] at hw2
    rcases List.mem_cons.1 hw2 with h | h
    · rw [h]
      exact closed_render l hw.1.1 hg.1.1.2 spaceSep spaceSep_only
        (fun h => by rw [hg.1.1.1] at h; cases h)
    · rcases List.mem_cons.1 h with h | h
      · rw [h]; exact closed_of_plainWord hB spaceSep_only
      · rcases List.mem_append.1 h with h | h
        · exact ih0 hw.1.2 hg.1.2 w h
        · rcases List.mem_cons.1 h with h | h
          · rw [h]; exact closed_of_plainWord hA spaceSep_only
          · exact ih1 hw.2 hg.2 w h

/-- Two trees with the same text have the same words. -/
theorem words_eq_of_render_eq (e1 e2 : Expression)
    (hw1 : e1.wellFormed isValue isOperator = true) (hg1 : e1.betweenGuarded = true)
    (hw2 : e2.wellFormed isValue isOperator = true) (hg2 : e2.betweenGuarded = true)
    (h : e1.render = e2.render) : e1.words = e2.words := by
  rw [render_eq_unwords e1, render_eq_unwords e2] at h
  exact unwords_injective spaceSep rfl _ _ (words_ne_nil e1) (words_ne_nil e2)
    (words_closed e1 hw1 hg1) (words_closed e2 hw2 hg2) h

theorem skeleton_eq_of_words_eq {e1 e2 : Expression} (h : e1.words = e2.words) :
    e1.skeleton = e2.skeleton := by
  have h2 : e1.skeleton.flatten ++ [] = e2.skeleton.flatten ++ [] := by
    simpa [Expression.words] using h
  exact (flatten_injective _ _ [] [] h2 (fun _ hh => by cases hh)
    (fun _ hh => by cases hh)).1

/-- Two trees with the same text have the same nesting of `BETWEEN` forms. -/
theorem skeleton_eq_of_render_eq (e1 e2 : Expression)
    (hw1 : e1.wellFormed isValue isOperator = true) (hg1 : e1.betweenGuarded = true)
    (hw2 : e2.wellFormed isValue isOperator = true) (hg2 : e2.betweenGuarded = true)
    (h : e1.render = e2.render) : e1.skeleton = e2.skeleton :=
  skeleton_eq_of_words_eq (words_eq_of_render_eq e1 e2 hw1 hg1 hw2 hg2 h)

theorem render_eq_of_skeleton_eq {e1 e2 : Expression} (h : e1.skeleton = e2.skeleton) :
    e1.render = e2.render := by
  rw [render_eq_unwords e1, render_eq_unwords e2, Expression.words, Expression.words, h]

theorem operator_ne_between {op : String} (h : isOperator op = true) :
    op.data ≠ "BETWEEN".data := by
  simp only [isOperator, operators, decide_eq_true_eq, List.mem_cons, List.mem_singleton,
    List.mem_nil_iff, or_false] at h
  rcases h with h | h | h | h | h | h | h | h | h <;> subst h <;> decide

/-- An operator followed by the text of a tree is read back in one way. -/
theorem operator_unique {op1 op2 : String} (h1 : isOperator op1 = true)
    (h2 : isOperator op2 = true) {c1 c2 : Char} {r1 r2 : List Char}
    (hc1 : startChar c1 = true) (hc2 : startChar c2 = true)
    (h : op1.data ++ c1 :: r1 = op2.data ++ c2 :: r2) :
    op1 = op2 ∧ c1 :: r1 = c2 :: r2 := by
  simp only [isOperator, operators, decide_eq_true_eq, List.mem_cons, List.mem_singleton,
    List.mem_nil_iff, or_false] at h1 h2
  rcases h1 with h1 | h1 | h1 | h1 | h1 | h1 | h1 | h1 | h1 <;>
    rcases h2 with h2 | h2 | h2 | h2 | h2 | h2 | h2 | h2 | h2 <;>
    subst h1 <;> subst h2 <;>
    first
    | (simp at h; done)
    | (refine ⟨rfl, ?_⟩; simpa using h)
    | (exfalso; simp at h; obtain ⟨h, _⟩ := h; subst h; revert hc1; decide)
    | (exfalso; simp at h; obtain ⟨h, _⟩ := h; subst h; revert hc2; decide)

theorem closed_inner_prefixExpression {op : String} {r : Expression}
    (ho : isOperator op = true) (hw : r.wellFormed isValue isOperator = true)
    (hg : r.betweenGuarded = true) : Closed noSep (op.data ++ r.render) :=
  closed_append (closed_of_plainWord (plainWord_of_isOperator ho) noSep_only)
    (closed_render r hw hg noSep noSep_only (fun _ => rfl))

theorem closed_inner_infixExpression {op : String} {l r : Expression}
    (ho : isOperator op = true) (hwl : l.wellFormed isValue isOperator = true)
    (hgl : l.betweenGuarded = true) (hwr : r.wellFormed isValue isOperator = true)
    (hgr : r.betweenGuarded = true) :
    Closed noSep (l.render ++ ' ' :: (op.data ++ ' ' :: r.render)) :=
  closed_append (closed_render l hwl hgl noSep noSep_only (fun _ => rfl))
    (closed_space noSep rfl
      (closed_append (closed_of_plainWord (plainWord_of_isOperator ho) noSep_only)
        (closed_space noSep rfl
          (closed_render r hwr hgr noSep noSep_only (fun _ => rfl)))))

theorem closed_args {as : List Expression}
    (hw : ∀ a ∈ as, a.wellFormed isValue isOperator = true)
    (hg : ∀ a ∈ as, a.betweenGuarded = true) : Closed noSep (Expression.renderArgs as) :=
  closed_renderArgs as
    (fun a ha => closed_render a (hw a ha) (hg a ha) noSep noSep_only (fun _ => rfl))

/-- A parenthesized text is not a text followed by a parenthesized text. -/
theorem group_ne_call {v A u : List Char} (hv : Closed noSep v) (hA : Closed noSep A)
    (hu : u ≠ []) : '(' :: (v ++ [')']) ≠ u ++ '(' :: (A ++ [')']) := by
  intro h
  have h2 : ([] ++ '(' :: v) ++ [')'] = (u ++ '(' :: A) ++ [')'] := by simpa using h
  have h3 := List.append_cancel_right h2
  exact hu (open_paren_unique hv hA h3).1.symm

/-- The inside of an `InfixExpression` as words. -/
theorem infix_inner_unwords (l r : Expression) (op : String) :
    l.render ++ ' ' :: (op.data ++ ' ' :: r.render)
      = unwords (l.words ++ op.data :: r.words) := by
  rw [unwords_append _ _ (words_ne_nil l) (by simp), ← render_eq_unwords]
  have : unwords (op.data :: r.words) = op.data ++ ' ' :: unwords r.words := by
    have := unwords_append [op.data] r.words (by simp) (words_ne_nil r)
    simpa [unwords] using this
  rw [this, ← render_eq_unwords]

theorem infix_inner_closed {l r : Expression} {op : String}
    (ho : isOperator op = true) (hwl : l.wellFormed isValue isOperator = true)
    (hgl : l.betweenGuarded = true) (hwr : r.wellFormed isValue isOperator = true)
    (hgr : r.betweenGuarded = true) :
    ∀ w ∈ l.words ++ op.data :: r.words, Closed spaceSep w := by
  intro w hw
  rcases List.mem_append.1 hw with h | h
  · exact words_closed l hwl hgl w h
  · rcases List.mem_cons.1 h with h | h
    · rw [h]; exact closed_of_plainWord (plainWord_of_isOperator ho) spaceSep_only
    · exact words_closed r hwr hgr w h

/-- The inside of an `InfixExpression` is read back in one way. -/
theorem infix_inner_unique {l1 r1 l2 r2 : Expression} {op1 op2 : String}
    (ho1 : isOperator op1 = true) (hwl1 : l1.wellFormed isValue isOperator = true)
    (hgl1 : l1.betweenGuarded = true) (hwr1 : r1.wellFormed isValue isOperator = true)
    (hgr1 : r1.betweenGuarded = true)
    (ho2 : isOperator op2 = true) (hwl2 : l2.wellFormed isValue isOperator = true)
    (hgl2 : l2.betweenGuarded = true) (hwr2 : r2.wellFormed isValue isOperator = true)
    (hgr2 : r2.betweenGuarded = true)
    (h : l1.render ++ ' ' :: (op1.data ++ ' ' :: r1.render)
      = l2.render ++ ' ' :: (op2.data ++ ' ' :: r2.render)) :
    l1.render = l2.render ∧ op1 = op2 ∧ r1.render = r2.render := by
  rw [infix_inner_unwords, infix_inner_unwords] at h
  have hL := unwords_injective spaceSep rfl _ _ (by simp) (by simp)
    (infix_inner_closed ho1 hwl1 hgl1 hwr1 hgr1)
    (infix_inner_closed ho2 hwl2 hgl2 hwr2 hgr2) h
  have hf : ∀ (op : String) (x r : List (List Char)), isOperator op = true →
      op.data :: x ≠ "BETWEEN".data :: r := by
    intro op x r ho hx
    exact operator_ne_between ho (List.cons.inj hx).1
  obtain ⟨hl, hrest⟩ := flatten_injective l1.skeleton l2.skeleton _ _ hL
    (hf op1 _ · ho1) (hf op2 _ · ho2)
  obtain ⟨hop, hr⟩ := List.cons.inj hrest
  exact ⟨render_eq_of_skeleton_eq hl, String.ext hop,
    render_eq_of_skeleton_eq (skeleton_eq_of_words_eq hr)⟩

/-- The inside of a `PrefixExpression` is not the inside of an `InfixExpression`. -/
theorem prefix_inner_ne_infix_inner {x l r : Expression} {op1 op2 : String}
    (ho1 : isOperator op1 = true) (hwx : x.wellFormed isValue isOperator = true)
    (hgx : x.betweenGuarded = true)
    (ho2 : isOperator op2 = true) (hwl : l.wellFormed isValue isOperator = true)
    (hgl : l.betweenGuarded = true) (hwr : r.wellFormed isValue isOperator = true)
    (hgr : r.betweenGuarded = true) :
    op1.data ++ x.render ≠ l.render ++ ' ' :: (op2.data ++ ' ' :: r.render) := by
  intro h
  rw [infix_inner_unwords] at h
  obtain ⟨w, ws, hx⟩ : ∃ w ws, x.words = w :: ws := by
    cases hxw : x.words with
    | nil => exact absurd hxw (words_ne_nil x)
    | cons w ws => exact ⟨w, ws, rfl⟩
  have hcl := words_closed x hwx hgx
  rw [hx] at hcl
  have hlhs : op1.data ++ x.render = unwords ((op1.data ++ w) :: ws) := by
    rw [render_eq_unwords, hx]
    cases ws <;> simp [unwords]
  rw [hlhs] at h
  have hL := unwords_injective spaceSep rfl _ _ (by simp) (by simp)
    (by
      intro y hy
      rcases List.mem_cons.1 hy with hy | hy
      · rw [hy]
        exact closed_append (closed_of_plainWord (plainWord_of_isOperator ho1) spaceSep_only)
          (hcl w (List.mem_cons_self _ _))
      · exact hcl y (List.mem_cons_of_mem _ hy))
    (infix_inner_closed ho2 hwl hgl hwr hgr) h
  rw [← flatten_mapFirst (fun v => op1.data ++ v) x.skeleton w ws hx] at hL
  have hL2 : (x.skeleton.mapFirst (fun v => op1.data ++ v)).flatten ++ []
      = l.skeleton.flatten ++ op2.data :: r.words := by
    simpa [Expression.words] using hL
  have := (flatten_injective _ _ _ _ hL2 (fun _ hh => by cases hh)
    (fun _ hx => operator_ne_between ho2 (List.cons.inj hx).1)).2
  cases this

/-- The rest of an argument list begins at the first comma outside parentheses. -/
theorem args_split {a b : Expression} {r1 r2 : List Expression}
    (hwa : a.wellFormed isValue isOperator = true) (hga : a.betweenGuarded = true)
    (hwb : b.wellFormed isValue isOperator = true) (hgb : b.betweenGuarded = true)
    (h : a.render ++ Expression.renderRest r1 = b.render ++ Expression.renderRest r2) :
    a.render = b.render ∧ Expression.renderRest r1 = Expression.renderRest r2 := by
  have ha := closed_render a hwa hga commaSep commaSep_only (fun _ => rfl)
  have hb := closed_render b hwb hgb commaSep commaSep_only (fun _ => rfl)
  cases r1 with
  | nil =>
    cases r2 with
    | nil => simpa [Expression.renderRest] using h
    | cons c r2 =>
      simp only [Expression.renderRest, List.append_nil] at h
      rw [h] at ha
      exact absurd ha (not_closed_sep hb (show commaSep ',' = true from rfl) _)
  | cons c r1 =>
    cases r2 with
    | nil =>
      simp only [Expression.renderRest, List.append_nil] at h
      rw [← h] at hb
      exact absurd hb (not_closed_sep ha (show commaSep ',' = true from rfl) _)
    | cons c2 r2 =>
      simp only [Expression.renderRest] at h ⊢
      obtain ⟨h1, _, h3⟩ := closed_sep_unique ha hb (show commaSep ',' = true from rfl)
        (show commaSep ',' = true from rfl) h
      exact ⟨h1, by rw [h3]⟩

theorem renderRest_injective (as1 : List Expression) :
    ∀ as2 : List Expression,
      (∀ a ∈ as1, ∀ e2 : Expression, a.wellFormed isValue isOperator = true →
        a.betweenGuarded = true → e2.wellFormed isValue isOperator = true →
        e2.betweenGuarded = true → a.render = e2.render →
        a.eraseTokens = e2.eraseTokens) →
      (∀ a ∈ as1, a.wellFormed isValue isOperator = true) →
      (∀ a ∈ as1, a.betweenGuarded = true) →
      (∀ a ∈ as2, a.wellFormed isValue isOperator = true) →
      (∀ a ∈ as2, a.betweenGuarded = true) →
      Expression.renderRest as1 = Expression.renderRest as2 →
      Expression.eraseTokensAll as1 = Expression.eraseTokensAll as2 := by
  induction as1 with
  | nil =>
    intro as2 _ _ _ _ _ h
    cases as2 with
    | nil => rfl
    | cons b r2 => simp [Expression.renderRest] at h
  | cons a r1 ih =>
    intro as2 hinj hw1 hg1 hw2 hg2 h
    cases as2 with
    | nil => simp [Expression.renderRest] at h
    | cons b r2 =>
      simp only [Expression.renderRest, List.cons.injEq, true_and] at h
      have hwa := hw1 a (List.mem_cons_self _ _)
      have hga := hg1 a (List.mem_cons_self _ _)
      have hwb := hw2 b (List.mem_cons_self _ _)
      have hgb := hg2 b (List.mem_cons_self _ _)
      obtain ⟨h1, h2⟩ := args_split hwa hga hwb hgb h
      have e1 := hinj a (List.mem_cons_self _ _) b hwa hga hwb hgb h1
      have e2 := ih r2 (fun x hx => hinj x (List.mem_cons_of_mem _ hx))
        (fun x hx => hw1 x (List.mem_cons_of_mem _ hx))
        (fun x hx => hg1 x (List.mem_cons_of_mem _ hx))
        (fun x hx => hw2 x (List.mem_cons_of_mem _ hx))
        (fun x hx => hg2 x (List.mem_cons_of_mem _ hx)) h2
      simp only [Expression.eraseTokensAll, e1, e2]

theorem render_ne_nil {e : Expression} (hw : e.wellFormed isValue isOperator = true) :
    e.render ≠ [] := by
  obtain ⟨c, rest, h, _⟩ := render_start e hw
  simp [h]

theorem renderArgs_injective (as1 as2 : List Expression)
    (hinj : ∀ a ∈ as1, ∀ e2 : Expression, a.wellFormed isValue isOperator = true →
        a.betweenGuarded = true → e2.wellFormed isValue isOperator = true →
        e2.betweenGuarded = true → a.render = e2.render →
        a.eraseTokens = e2.eraseTokens)
    (hw1 : ∀ a ∈ as1, a.wellFormed isValue isOperator = true)
    (hg1 : ∀ a ∈ as1, a.betweenGuarded = true)
    (hw2 : ∀ a ∈ as2, a.wellFormed isValue isOperator = true)
    (hg2 : ∀ a ∈ as2, a.betweenGuarded = true)
    (h : Expression.renderArgs as1 = Expression.renderArgs as2) :
    Expression.eraseTokensAll as1 = Expression.eraseTokensAll as2 := by
  cases as1 with
  | nil =>
    cases as2 with
    | nil => rfl
    | cons b r2 =>
      simp only [Expression.renderArgs] at h
      have := render_ne_nil (hw2 b (List.mem_cons_self _ _))
      have h2 := (List.append_eq_nil.1 h.symm).1
      exact absurd h2 this
  | cons a r1 =>
    cases as2 with
    | nil =>
      simp only [Expression.renderArgs] at h
      have := render_ne_nil (hw1 a (List.mem_cons_self _ _))
      have h2 := (List.append_eq_nil.1 h).1
      exact absurd h2 this
    | cons b r2 =>
      simp only [Expression.renderArgs] at h
      have hwa := hw1 a (List.mem_cons_self _ _)
      have hga := hg1 a (List.mem_cons_self _ _)
      have hwb := hw2 b (List.mem_cons_self _ _)
      have hgb := hg2 b (List.mem_cons_self _ _)
      obtain ⟨h1, h2⟩ := args_split hwa hga hwb hgb h
      have e1 := hinj a (List.mem_cons_self _ _) b hwa hga hwb hgb h1
      have e2 := renderRest_injective r1 r2
        (fun x hx => hinj x (List.mem_cons_of_mem _ hx))
        (fun x hx => hw1 x (List.mem_cons_of_mem _ hx))
        (fun x hx => hg1 x (List.mem_cons_of_mem _ hx))
        (fun x hx => hw2 x (List.mem_cons_of_mem _ hx))
        (fun x hx => hg2 x (List.mem_cons_of_mem _ hx)) h2
      simp only [Expression.eraseTokensAll, e1, e2]

theorem render_prefixExpression (t : Token) (op : String) (r : Expression) :
    (Expression.PrefixExpression t op r).render = '(' :: ((op.data ++ r.render) ++ [')']) := by
  simp [Expression.render]

theorem render_infixExpression (t : Token) (l : Expression) (op : String) (r : Expression) :
    (Expression.InfixExpression t l op r).render
      = '(' :: ((l.render ++ ' ' :: (op.data ++ ' ' :: r.render)) ++ [')']) := by
  simp [Expression.render]

theorem inner_of_group {a b : List Char} (h : '(' :: (a ++ [')']) = '(' :: (b ++ [')'])) :
    a = b :=
  List.append_cancel_right (List.cons.inj h).2

/-- A name is not the text of a tree that contains a parenthesis. -/
theorem name_ne_of_paren {v : String} (hv : isValue v = true) {l : List Char}
    (hl : '(' ∈ l) : v.data ≠ l := by
  intro h
  rw [← h] at hl
  exact (plainWord_of_isValue hv _ hl).1 rfl

/-- A `BetweenExpression` and a node of another kind have different texts. -/
theorem between_ne_other (e1 e2 : Expression)
    (hw1 : e1.wellFormed isValue isOperator = true) (hg1 : e1.betweenGuarded = true)
    (hw2 : e2.wellFormed isValue isOperator = true) (hg2 : e2.betweenGuarded = true)
    (hb1 : e1.isBetween = true) (hb2 : e2.isBetween = false) : e1.render ≠ e2.render := by
  intro h
  have hsk := skeleton_eq_of_render_eq e1 e2 hw1 hg1 hw2 hg2 h
  rw [skeleton_of_not_between e2 hb2] at hsk
  cases e1 <;> simp [Expression.isBetween] at hb1
  simp [Expression.skeleton] at hsk

/-- Two trees of the guarded class with the same text are the same tree, up to
their tokens. -/
theorem render_injective (e1 : Expression) :
    ∀ e2 : Expression, e1.wellFormed isValue isOperator = true →
      e1.betweenGuarded = true → e2.wellFormed isValue isOperator = true →
      e2.betweenGuarded = true → e1.render = e2.render →
      e1.eraseTokens = e2.eraseTokens := by
  induction e1 using Expression_induct with
  | hnil => intro e2 hw; simp [Expression.wellFormed] at hw
  | hnp k => intro e2 hw; simp [Expression.wellFormed] at hw
  | hid t v =>
    intro e2 hw1 hg1 hw2 hg2 h
    have hv : isValue v = true := by simpa [Expression.wellFormed] using hw1
    cases e2 with
    | nil => simp [Expression.wellFormed] at hw2
    | nilPointer k => simp [Expression.wellFormed] at hw2
    | Identifier t2 v2 =>
      have : v = v2 := String.ext (by simpa [Expression.render] using h)
      simp [Expression.eraseTokens, this]
    | PrefixExpression t2 op2 r2 =>
      exact absurd h (name_ne_of_paren hv (by simp [Expression.render]))
    | InfixExpression t2 l2 op2 r2 =>
      exact absurd h (name_ne_of_paren hv (by simp [Expression.render]))
    | CallExpression t2 f2 as2 =>
      exact absurd h (name_ne_of_paren hv (by simp [Expression.render]))
    | BetweenExpression t2 l2 a2 b2 =>
      exact absurd h.symm (between_ne_other _ _ hw2 hg2 hw1 hg1 rfl rfl)
  | hpre t op r ih =>
    intro e2 hw1 hg1 hw2 hg2 h
    have hw1c := hw1
    have hg1c := hg1
    simp only [Expression.wellFormed, Bool.and_eq_true] at hw1
    simp only [Expression.betweenGuarded] at hg1
    cases e2 with
    | nil => simp [Expression.wellFormed] at hw2
    | nilPointer k => simp [Expression.wellFormed] at hw2
    | Identifier t2 v2 =>
      have hv : isValue v2 = true := by simpa [Expression.wellFormed] using hw2
      exact absurd h.symm (name_ne_of_paren hv (by simp [Expression.render]))
    | PrefixExpression t2 op2 r2 =>
      simp only [Expression.wellFormed, Bool.and_eq_true] at hw2
      simp only [Expression.betweenGuarded] at hg2
      rw [render_prefixExpression, render_prefixExpression] at h
      have hin := inner_of_group h
      obtain ⟨c1, rest1, hr1, hc1⟩ := render_start r hw1.2
      obtain ⟨c2, rest2, hr2, hc2⟩ := render_start r2 hw2.2
      rw [hr1, hr2] at hin
      obtain ⟨hop, hrest⟩ := operator_unique hw1.1 hw2.1 hc1 hc2 hin
      rw [← hr1, ← hr2] at hrest
      have := ih r2 hw1.2 hg1 hw2.2 hg2 hrest
      simp only [Expression.eraseTokens, hop, this]
    | InfixExpression t2 l2 op2 r2 =>
      simp only [Expression.wellFormed, Bool.and_eq_true] at hw2
      simp only [Expression.betweenGuarded, Bool.and_eq_true] at hg2
      rw [render_prefixExpression, render_infixExpression] at h
      exact absurd (inner_of_group h)
        (prefix_inner_ne_infix_inner hw1.1 hw1.2 hg1 hw2.1.2 hw2.1.1 hg2.1 hw2.2 hg2.2)
    | CallExpression t2 f2 as2 =>
      simp only [Expression.wellFormed, Bool.and_eq_true, wellFormedAll_iff] at hw2
      simp only [Expression.betweenGuarded, Bool.and_eq_true, betweenGuardedAll_iff] at hg2
      rw [render_prefixExpression] at h
      exact absurd h (group_ne_call (closed_inner_prefixExpression hw1.1 hw1.2 hg1)
        (closed_args hw2.2 hg2.2) (render_ne_nil hw2.1))
    | BetweenExpression t2 l2 a2 b2 =>
      exact absurd h.symm (between_ne_other _ _ hw2 hg2 hw1c hg1c rfl rfl)
  | hinf t l op r ihl ihr =>
    intro e2 hw1 hg1 hw2 hg2 h
    have hw1c := hw1
    have hg1c := hg1
    simp only [Expression.wellFormed, Bool.and_eq_true] at hw1
    simp only [Expression.betweenGuarded, Bool.and_eq_true] at hg1
    cases e2 with
    | nil => simp [Expression.wellFormed] at hw2
    | nilPointer k => simp [Expression.wellFormed] at hw2
    | Identifier t2 v2 =>
      have hv : isValue v2 = true := by simpa [Expression.wellFormed] using hw2
      exact absurd h.symm (name_ne_of_paren hv (by simp [Expression.render]))
    | PrefixExpression t2 op2 r2 =>
      simp only [Expression.wellFormed, Bool.and_eq_true] at hw2
      simp only [Expression.betweenGuarded] at hg2
      rw [render_infixExpression, render_prefixExpression] at h
      exact absurd (inner_of_group h).symm
        (prefix_inner_ne_infix_inner hw2.1 hw2.2 hg2 hw1.1.2 hw1.1.1 hg1.1 hw1.2 hg1.2)
    | InfixExpression t2 l2 op2 r2 =>
      simp only [Expression.wellFormed, Bool.and_eq_true] at hw2
      simp only [Expression.betweenGuarded, Bool.and_eq_true] at hg2
      rw [render_infixExpression, render_infixExpression] at h
      obtain ⟨hl, hop, hr⟩ := infix_inner_unique hw1.1.2 hw1.1.1 hg1.1 hw1.2 hg1.2
        hw2.1.2 hw2.1.1 hg2.1 hw2.2 hg2.2 (inner_of_group h)
      have el := ihl l2 hw1.1.1 hg1.1 hw2.1.1 hg2.1 hl
      have er := ihr r2 hw1.2 hg1.2 hw2.2 hg2.2 hr
      simp only [Expression.eraseTokens, hop, el, er]
    | CallExpression t2 f2 as2 =>
      simp only [Expression.wellFormed, Bool.and_eq_true, wellFormedAll_iff] at hw2
      simp only [Expression.betweenGuarded, Bool.and_eq_true, betweenGuardedAll_iff] at hg2
      rw [render_infixExpression] at h
      exact absurd h (group_ne_call
        (closed_inner_infixExpression hw1.1.2 hw1.1.1 hg1.1 hw1.2 hg1.2)
        (closed_args hw2.2 hg2.2) (render_ne_nil hw2.1))
    | BetweenExpression t2 l2 a2 b2 =>
      exact absurd h.symm (between_ne_other _ _ hw2 hg2 hw1c hg1c rfl rfl)
  | hcall t f as ihf ihas =>
    intro e2 hw1 hg1 hw2 hg2 h
    have hw1c := hw1
    have hg1c := hg1
    simp only [Expression.wellFormed, Bool.and_eq_true, wellFormedAll_iff] at hw1
    simp only [Expression.betweenGuarded, Bool.and_eq_true, betweenGuardedAll_iff] at hg1
    cases e2 with
    | nil => simp [Expression.wellFormed] at hw2
    | nilPointer k => simp [Expression.wellFormed] at hw2
    | Identifier t2 v2 =>
      have hv : isValue v2 = true := by simpa [Expression.wellFormed] using hw2
      exact absurd h.symm (name_ne_of_paren hv (by simp [Expression.render]))
    | PrefixExpression t2 op2 r2 =>
      simp only [Expression.wellFormed, Bool.and_eq_true] at hw2
      simp only [Expression.betweenGuarded] at hg2
      rw [render_prefixExpression] at h
      exact absurd h.symm (group_ne_call (closed_inner_prefixExpression hw2.1 hw2.2 hg2)
        (closed_args hw1.2 hg1.2) (render_ne_nil hw1.1))
    | InfixExpression t2 l2 op2 r2 =>
      simp only [Expression.wellFormed, Bool.and_eq_true] at hw2
      simp only [Expression.betweenGuarded, Bool.and_eq_true] at hg2
      rw [render_infixExpression] at h
      exact absurd h.symm (group_ne_call
        (closed_inner_infixExpression hw2.1.2 hw2.1.1 hg2.1 hw2.2 hg2.2)
        (closed_args hw1.2 hg1.2) (render_ne_nil hw1.1))
    | CallExpression t2 f2 as2 =>
      simp only [Expression.wellFormed, Bool.and_eq_true, wellFormedAll_iff] at hw2
      simp only [Expression.betweenGuarded, Bool.and_eq_true, betweenGuardedAll_iff] at hg2
      simp only [Expression.render] at h
      have h2 : (f.render ++ '(' :: Expression.renderArgs as) ++ [')']
          = (f2.render ++ '(' :: Expression.renderArgs as2) ++ [')'] := by simpa using h
      obtain ⟨hf, hargs⟩ := open_paren_unique (closed_args hw1.2 hg1.2)
        (closed_args hw2.2 hg2.2) (List.append_cancel_right h2)
      have ef := ihf f2 hw1.1 hg1.1.2 hw2.1 hg2.1.2 hf
      have ea := renderArgs_injective as as2 ihas hw1.2 hg1.2 hw2.2 hg2.2 hargs
      simp only [Expression.eraseTokens, ef, ea]
    | BetweenExpression t2 l2 a2 b2 =>
      exact absurd h.symm (between_ne_other _ _ hw2 hg2 hw1c hg1c rfl rfl)
  | hbtw t l a b ihl iha ihb =>
    intro e2 hw1 hg1 hw2 hg2 h
    cases e2 with
    | nil => simp [Expression.wellFormed] at hw2
    | nilPointer k => simp [Expression.wellFormed] at hw2
    | Identifier t2 v2 => exact absurd h (between_ne_other _ _ hw1 hg1 hw2 hg2 rfl rfl)
    | PrefixExpression t2 op2 r2 =>
      exact absurd h (between_ne_other _ _ hw1 hg1 hw2 hg2 rfl rfl)
    | InfixExpression t2 l2 op2 r2 =>
      exact absurd h (between_ne_other _ _ hw1 hg1 hw2 hg2 rfl rfl)
    | CallExpression t2 f2 as2 =>
      exact absurd h (between_ne_other _ _ hw1 hg1 hw2 hg2 rfl rfl)
    | BetweenExpression t2 l2 a2 b2 =>
      have hsk := skeleton_eq_of_render_eq _ _ hw1 hg1 hw2 hg2 h
      simp only [Expression.skeleton, WordTree.node.injEq] at hsk
      simp only [Expression.wellFormed, Bool.and_eq_true] at hw1 hw2
      simp only [Expression.betweenGuarded, Bool.and_eq_true] at hg1 hg2
      have el := ihl l2 hw1.1.1 hg1.1.1.2 hw2.1.1 hg2.1.1.2 hsk.1
      have ea := iha a2 hw1.1.2 hg1.1.2 hw2.1.2 hg2.1.2 (render_eq_of_skeleton_eq hsk.2.1)
      have eb := ihb b2 hw1.2 hg1.2 hw2.2 hg2.2 (render_eq_of_skeleton_eq hsk.2.2)
      simp only [Expression.eraseTokens, el, ea, eb]

/-! ## The printed characters are the text -/

theorem Join_cons_data (a : String) (rest : List String) (sep : String) :
    (strings.Join (a :: rest) sep).data
      = a.data ++ (rest.map (fun x => sep.data ++ x.data)).flatten := by
  induction rest generalizing a with
  | nil => simp [strings.Join]
  | cons b rest ih => simp [strings.Join, ih b]

theorem renderRest_eq (as : List Expression) (ss : List String)
    (h : Expression.argStrings as = some ss)
    (hr : ∀ a ∈ as, ∀ s, a.String = some s → s.data = a.render) :
    (ss.map (fun x => ", ".data ++ x.data)).flatten = Expression.renderRest as := by
  induction as generalizing ss with
  | nil =>
    simp [Expression.argStrings] at h
    subst h
    simp [Expression.renderRest]
  | cons a rest ih =>
    cases h1 : a.String with
    | none => simp [Expression.argStrings, h1] at h
    | some s =>
      cases h2 : Expression.argStrings rest with
      | none => simp [Expression.argStrings, h1, h2] at h
      | some ss2 =>
        simp [Expression.argStrings, h1, h2] at h
        subst h
        have := ih ss2 h2 (fun b hb => hr b (List.mem_cons_of_mem _ hb))
        simp [Expression.renderRest, ← this, hr a (List.mem_cons_self _ _) s h1]

theorem renderArgs_eq (as : List Expression) (ss : List String)
    (h : Expression.argStrings as = some ss)
    (hr : ∀ a ∈ as, ∀ s, a.String = some s → s.data = a.render) :
    (strings.Join ss ", ").data = Expression.renderArgs as := by
  cases as with
  | nil =>
    simp [Expression.argStrings] at h
    subst h
    simp [Expression.renderArgs, strings.Join]
  | cons a rest =>
    cases h1 : a.String with
    | none => simp [Expression.argStrings, h1] at h
    | some s =>
      cases h2 : Expression.argStrings rest with
      | none => simp [Expression.argStrings, h1, h2] at h
      | some ss2 =>
        simp [Expression.argStrings, h1, h2] at h
        subst h
        rw [Join_cons_data, Expression.renderArgs,
          renderRest_eq rest ss2 h2 (fun b hb => hr b (List.mem_cons_of_mem _ hb)),
          hr a (List.mem_cons_self _ _) s h1]

/-- Whatever `String()` returns for a tree is the text `render` gives. -/
theorem String_data_eq_render (e : Expression) :
    ∀ s, e.String = some s → s.data = e.render := by
  induction e using Expression_induct with
  | hnil => simp [Expression.String]
  | hnp k => simp [Expression.String]
  | hid t v => simp [Expression.String, Expression.render]
  | hpre t op r ih =>
    intro s hs
    cases h1 : r.String with
    | none => simp [Expression.String, h1] at hs
    | some sr =>
      simp [Expression.String, h1] at hs
      subst hs
      simp [Expression.render, ih sr h1]
  | hinf t l op r ihl ihr =>
    intro s hs
    cases h1 : l.String with
    | none => simp [Expression.String, h1] at hs
    | some sl =>
      cases h2 : r.String with
      | none => simp [Expression.String, h1, h2] at hs
      | some sr =>
        simp [Expression.String, h1, h2] at hs
        subst hs
        simp [Expression.render, ihl sl h1, ihr sr h2]
  | hcall t f as ihf ihas =>
    intro s hs
    cases h1 : Expression.argStrings as with
    | none => simp [Expression.String, h1] at hs
    | some ss =>
      cases h2 : f.String with
      | none => simp [Expression.String, h1, h2] at hs
      | some sf =>
        simp [Expression.String, h1, h2] at hs
        subst hs
        simp [Expression.render, ihf sf h2, renderArgs_eq as ss h1 ihas]
  | hbtw t l r0 r1 ihl ih0 ih1 =>
    intro s hs
    cases h1 : l.String with
    | none => simp [Expression.String, h1] at hs
    | some sl =>
      cases h2 : r0.String with
      | none => simp [Expression.String, h1, h2] at hs
      | some s0 =>
        cases h3 : r1.String with
        | none => simp [Expression.String, h1, h2, h3] at hs
        | some s1 =>
          simp [Expression.String, h1, h2, h3] at hs
          subst hs
          simp [Expression.render, ihl sl h1, ih0 s0 h2, ih1 s1 h3]

/-- A tree without a nil node prints: `String()` does not panic on it. -/
theorem String_isSome_of_wellFormed (okV okO : String → Bool) (e : Expression) :
    e.wellFormed okV okO = true → ∃ s, e.String = some s := by
  induction e using Expression_induct with
  | hnil => simp [Expression.wellFormed]
  | hnp k => simp [Expression.wellFormed]
  | hid t v => intro _; exact ⟨v, rfl⟩
  | hpre t op r ih =>
    intro h
    simp only [Expression.wellFormed, Bool.and_eq_true] at h
    obtain ⟨s, hs⟩ := ih h.2
    exact ⟨"(" ++ op ++ s ++ ")", by simp [Expression.String, hs]⟩
  | hinf t l op r ihl ihr =>
    intro h
    simp only [Expression.wellFormed, Bool.and_eq_true] at h
    obtain ⟨a, ha⟩ := ihl h.1.1
    obtain ⟨b, hb⟩ := ihr h.2
    exact ⟨"(" ++ a ++ (" " ++ op ++ " ") ++ b ++ ")", by simp [Expression.String, ha, hb]⟩
  | hcall t f as ihf ihas =>
    intro h
    simp only [Expression.wellFormed, Bool.and_eq_true, wellFormedAll_iff] at h
    obtain ⟨g, hg⟩ := ihf h.1
    obtain ⟨ss, hss, _, _⟩ := @argStrings_of_forall (fun _ => True) as
      (fun a ha => by
        obtain ⟨s, hs⟩ := ihas a ha (h.2 a ha)
        exact ⟨s, hs, trivial⟩)
    exact ⟨g ++ "(" ++ strings.Join ss ", " ++ ")", by simp [Expression.String, hg, hss]⟩
  | hbtw t l r0 r1 ihl ih0 ih1 =>
    intro h
    simp only [Expression.wellFormed, Bool.and_eq_true] at h
    obtain ⟨a, ha⟩ := ihl h.1.1
    obtain ⟨b, hb⟩ := ih0 h.1.2
    obtain ⟨c, hc⟩ := ih1 h.2
    exact ⟨a ++ " BETWEEN " ++ b ++ " AND " ++ c, by simp [Expression.String, ha, hb, hc]⟩

/-! ## The printing rules of the node kinds -/

/-- C1: an `InfixExpression` whose `Left` prints as `sl` and whose `Right`
prints as `sr` prints as `"(" + sl + " " + op + " " + sr + ")"`. -/
theorem InfixExpression_String (tok : Token) (l r : Expression) (op sl sr : String)
    (hl : l.String = some sl) (hr : r.String = some sr) :
    (Expression.InfixExpression tok l op r).String
      = some ("(" ++ sl ++ " " ++ op ++ " " ++ sr ++ ")") := by
  simp [Expression.String, hl, hr, String.append_assoc]

/-- The tree `a OR (b AND c)` prints as `"(a OR (b AND c))"`. -/
theorem InfixExpression_String_witness :
    (Expression.Identifier ⟨1, "a"⟩ "a").String = some "a" ∧
    (Expression.InfixExpression ⟨0, "AND"⟩ (.Identifier ⟨1, "b"⟩ "b") "AND"
        (.Identifier ⟨1, "c"⟩ "c")).String = some "(b AND c)" ∧
    (Expression.InfixExpression ⟨0, "OR"⟩ (.Identifier ⟨1, "a"⟩ "a") "OR"
        (.InfixExpression ⟨0, "AND"⟩ (.Identifier ⟨1, "b"⟩ "b") "AND"
          (.Identifier ⟨1, "c"⟩ "c"))).String
      = some "(a OR (b AND c))" :=
  ⟨rfl, rfl,
    InfixExpression_String ⟨0, "OR"⟩ (.Identifier ⟨1, "a"⟩ "a")
      (.InfixExpression ⟨0, "AND"⟩ (.Identifier ⟨1, "b"⟩ "b") "AND" (.Identifier ⟨1, "c"⟩ "c"))
      "OR" "a" "(b AND c)" rfl rfl⟩

/-- C2: a `PrefixExpression` whose `Right` prints as `sr` prints as
`"(" + op + sr + ")"`: nothing stands between the operator and the operand. -/
theorem PrefixExpression_String (tok : Token) (r : Expression) (op sr : String)
    (hr : r.String = some sr) :
    (Expression.PrefixExpression tok op r).String = some ("(" ++ op ++ sr ++ ")") := by
  simp [Expression.String, hr]

/-- The tree `NOT a` prints as `"(NOTa)"`. -/
theorem PrefixExpression_String_witness :
    (Expression.Identifier ⟨1, "a"⟩ "a").String = some "a" ∧
    (Expression.PrefixExpression ⟨0, "NOT"⟩ "NOT" (.Identifier ⟨1, "a"⟩ "a")).String
      = some "(NOTa)" :=
  ⟨rfl, PrefixExpression_String ⟨0, "NOT"⟩ (.Identifier ⟨1, "a"⟩ "a") "NOT" "a" rfl⟩

/-- C3: a `CallExpression` whose `Function` prints as `sf` and whose arguments
print, in list order, as `ss` prints as `sf + "(" + ss joined by ", " + ")"`;
with no argument that is `sf + "()"`, and with the one argument `sa` it is
`sf + "(" + sa + ")"`. -/
theorem CallExpression_String (tok : Token) (fn : Expression) (sf : String)
    (hf : fn.String = some sf) :
    (∀ (args : List Expression) (ss : List String),
        args.map Expression.String = ss.map some →
        (Expression.CallExpression tok fn args).String
          = some (sf ++ "(" ++ String.intercalate ", " ss ++ ")")) ∧
    (Expression.CallExpression tok fn []).String = some (sf ++ "()") ∧
    (∀ (a : Expression) (sa : String), a.String = some sa →
        (Expression.CallExpression tok fn [a]).String = some (sf ++ "(" ++ sa ++ ")")) := by
  refine ⟨?_, ?_, ?_⟩
  · intro args ss h
    rw [← argStrings_eq_some_iff] at h
    simp [Expression.String, h, hf, Join_eq_intercalate]
  · simp [Expression.String, Expression.argStrings, hf, strings.Join, String.append_assoc]
  · intro a sa ha
    simp [Expression.String, Expression.argStrings, hf, ha, strings.Join]

/-- The tree `f(a, b)` prints as `"f(a, b)"`. -/
theorem CallExpression_String_witness :
    (Expression.Identifier ⟨1, "f"⟩ "f").String = some "f" ∧
    (Expression.CallExpression ⟨2, "("⟩ (.Identifier ⟨1, "f"⟩ "f")
        [.Identifier ⟨1, "a"⟩ "a", .Identifier ⟨1, "b"⟩ "b"]).String = some "f(a, b)" :=
  ⟨rfl, (CallExpression_String ⟨2, "("⟩ (.Identifier ⟨1, "f"⟩ "f") "f" rfl).1
    [.Identifier ⟨1, "a"⟩ "a", .Identifier ⟨1, "b"⟩ "b"] ["a", "b"] rfl⟩

/-- C4: a `BetweenExpression` whose `Left`, `Range[0]` and `Range[1]` print as
`sl`, `s0` and `s1` prints as `sl + " BETWEEN " + s0 + " AND " + s1`, the
bounds in their order and no parenthesis added. -/
theorem BetweenExpression_String (tok : Token) (l r0 r1 : Expression) (sl s0 s1 : String)
    (hl : l.String = some sl) (h0 : r0.String = some s0) (h1 : r1.String = some s1) :
    (Expression.BetweenExpression tok l r0 r1).String
      = some (sl ++ " BETWEEN " ++ s0 ++ " AND " ++ s1) := by
  simp [Expression.String, hl, h0, h1]

/-- The tree `a BETWEEN 1 AND 2` prints as `"a BETWEEN 1 AND 2"`. -/
theorem BetweenExpression_String_witness :
    (Expression.Identifier ⟨1, "a"⟩ "a").String = some "a" ∧
    (Expression.Identifier ⟨1, "1"⟩ "1").String = some "1" ∧
    (Expression.Identifier ⟨1, "2"⟩ "2").String = some "2" ∧
    (Expression.BetweenExpression ⟨3, "BETWEEN"⟩ (.Identifier ⟨1, "a"⟩ "a")
        (.Identifier ⟨1, "1"⟩ "1") (.Identifier ⟨1, "2"⟩ "2")).String
      = some "a BETWEEN 1 AND 2" :=
  ⟨rfl, rfl, rfl,
    BetweenExpression_String ⟨3, "BETWEEN"⟩ (.Identifier ⟨1, "a"⟩ "a")
      (.Identifier ⟨1, "1"⟩ "1") (.Identifier ⟨1, "2"⟩ "2") "a" "1" "2" rfl rfl rfl⟩

/-! ## Two printed trees -/

/-- C6, as stated, fails: the tree of `a BETWEEN 1 AND 2` followed by `AND b`
does not print as `"((a BETWEEN 1 AND 2) AND b)"`. -/
theorem between_then_and_not_parenthesized :
    (Expression.InfixExpression ⟨0, "AND"⟩
        (.BetweenExpression ⟨3, "BETWEEN"⟩ (.Identifier ⟨1, "a"⟩ "a")
          (.Identifier ⟨1, "1"⟩ "1") (.Identifier ⟨1, "2"⟩ "2"))
        "AND" (.Identifier ⟨1, "b"⟩ "b")).String
      ≠ some "((a BETWEEN 1 AND 2) AND b)" := by
  decide

/-- C6, amended: the tree of `a BETWEEN 1 AND 2` followed by `AND b` prints as
`"(a BETWEEN 1 AND 2 AND b)"`, whatever the tokens of its nodes: the `BETWEEN`
node adds no parentheses. -/
theorem between_then_and_String (t1 t2 t3 t4 t5 t6 : Token) :
    (Expression.InfixExpression t1
        (.BetweenExpression t2 (.Identifier t3 "a") (.Identifier t4 "1") (.Identifier t5 "2"))
        "AND" (.Identifier t6 "b")).String
      = some "(a BETWEEN 1 AND 2 AND b)" := by
  rfl

/-- C7, as stated, fails: the tree of `NOT a AND b` does not print as
`"((NOT a) AND b)"`. -/
theorem not_then_and_no_space :
    (Expression.InfixExpression ⟨0, "AND"⟩
        (.PrefixExpression ⟨0, "NOT"⟩ "NOT" (.Identifier ⟨1, "a"⟩ "a"))
        "AND" (.Identifier ⟨1, "b"⟩ "b")).String
      ≠ some "((NOT a) AND b)" := by
  decide

/-- C7, amended: the tree of `NOT a AND b` prints as `"((NOTa) AND b)"`,
whatever the tokens of its nodes: the operator `NOT` and its operand are not
separated. -/
theorem not_then_and_String (t1 t2 t3 t4 : Token) :
    (Expression.InfixExpression t1
        (.PrefixExpression t2 "NOT" (.Identifier t3 "a")) "AND" (.Identifier t4 "b")).String
      = some "((NOTa) AND b)" := by
  rfl

/-! ## Token literals -/

/-- C8: `TokenLiteral()` of an `Identifier`, `ExpressionStatement`,
`PrefixExpression`, `InfixExpression`, `CallExpression` or `BetweenExpression`
is the `Literal` of the node's own `Token`, whatever the other fields are. -/
theorem TokenLiteral_own_token (tok : Token) :
    (∀ v, (Expression.Identifier tok v).TokenLiteral = some tok.Literal) ∧
    (∀ e, (Statement.ExpressionStatement tok e).TokenLiteral = some tok.Literal) ∧
    (∀ op r, (Expression.PrefixExpression tok op r).TokenLiteral = some tok.Literal) ∧
    (∀ l op r, (Expression.InfixExpression tok l op r).TokenLiteral = some tok.Literal) ∧
    (∀ f args, (Expression.CallExpression tok f args).TokenLiteral = some tok.Literal) ∧
    (∀ l r0 r1, (Expression.BetweenExpression tok l r0 r1).TokenLiteral
        = some tok.Literal) :=
  ⟨fun _ => rfl, fun _ => rfl, fun _ _ => rfl, fun _ _ _ => rfl, fun _ _ => rfl,
    fun _ _ _ => rfl⟩

/-! ## The root and the statement wrapper -/

/-- C10: for a root whose `Statement` is an `ExpressionStatement`, `String()` of
the root is `String()` of the wrapped expression when that is not the nil
interface value (so both panic when it holds a nil pointer), and is the empty
string, without failing, when it is the nil interface value. -/
theorem DynamoExpression_String_wrapper (de : DynamoExpression) (tok : Token)
    (e : Expression) (h : de.Statement = Statement.ExpressionStatement tok e) :
    (e ≠ Expression.nil → de.String = e.String) ∧
    (e = Expression.nil → de.String = some "") := by
  constructor
  · intro hne
    cases e <;> simp_all [DynamoExpression.String, Statement.String]
  · intro he
    subst he
    simp [DynamoExpression.String, h, Statement.String]

/-- A root around the identifier `a` prints as `"a"`, a root around a nil
expression as `""`, and a root around the nil pointer `(*Identifier)(nil)`
panics. -/
theorem DynamoExpression_String_wrapper_witness :
    (DynamoExpression.mk (.ExpressionStatement ⟨1, "a"⟩ (.Identifier ⟨1, "a"⟩ "a"))).String
      = some "a" ∧
    (DynamoExpression.mk (.ExpressionStatement ⟨1, "a"⟩ .nil)).String = some "" ∧
    (DynamoExpression.mk
      (.ExpressionStatement ⟨1, "a"⟩ (.nilPointer .Identifier))).String = none :=
  ⟨(DynamoExpression_String_wrapper ⟨.ExpressionStatement ⟨1, "a"⟩ (.Identifier ⟨1, "a"⟩ "a")⟩
      ⟨1, "a"⟩ (.Identifier ⟨1, "a"⟩ "a") rfl).1 (by simp),
   (DynamoExpression_String_wrapper ⟨.ExpressionStatement ⟨1, "a"⟩ .nil⟩
      ⟨1, "a"⟩ .nil rfl).2 rfl,
   (DynamoExpression_String_wrapper ⟨.ExpressionStatement ⟨1, "a"⟩ (.nilPointer .Identifier)⟩
      ⟨1, "a"⟩ (.nilPointer .Identifier) rfl).1 (by simp)⟩

/-- An `ExpressionStatement` whose `Expression` holds a nil pointer passes the
test `es.Expression != nil`, and `String()` of the statement and of the root
panic in the call of `String()` on that pointer. -/
theorem ExpressionStatement_String_nilPointer (tok : Token) (k : NodeKind) :
    (Statement.ExpressionStatement tok (.nilPointer k)).String = none ∧
    (DynamoExpression.mk (.ExpressionStatement tok (.nilPointer k))).String = none :=
  ⟨rfl, rfl⟩

/-! ## The text as a canonical form -/

/-- C5, as stated, fails: the trees `(a BETWEEN 1 AND 2) BETWEEN 3 AND 4` and
`a BETWEEN 1 AND (2 BETWEEN 3 AND 4)` are built from identifiers with
alphanumeric values and `BetweenExpression` nodes, print the same text, and
are not structurally identical. -/
theorem String_not_injective :
    betweenInLeft.wellFormed isName isOperator = true ∧
    betweenInRange.wellFormed isName isOperator = true ∧
    betweenInLeft.String = some "a BETWEEN 1 AND 2 BETWEEN 3 AND 4" ∧
    betweenInRange.String = some "a BETWEEN 1 AND 2 BETWEEN 3 AND 4" ∧
    betweenInLeft.eraseTokens ≠ betweenInRange.eraseTokens := by
  refine ⟨by decide, by decide, by decide, by decide, ?_⟩
  simp [betweenInLeft, betweenInRange, leaf, Expression.eraseTokens]

/-- A `BetweenExpression` as the `Function` of a call is printed like a
`BetweenExpression` whose upper bound is the call. -/
theorem String_between_function_ambiguous :
    betweenAsFunction.wellFormed isName isOperator = true ∧
    betweenOverCall.wellFormed isName isOperator = true ∧
    betweenAsFunction.String = some "a BETWEEN 1 AND f(x)" ∧
    betweenOverCall.String = some "a BETWEEN 1 AND f(x)" ∧
    betweenAsFunction.eraseTokens ≠ betweenOverCall.eraseTokens := by
  refine ⟨by decide, by decide, by decide, by decide, ?_⟩
  simp [betweenAsFunction, betweenOverCall, leaf, Expression.eraseTokens]

/-- Of the two trees of each pair above, the guard bars one and keeps the
other: the tree with a `BetweenExpression` as `Left`, and the tree with a
`BetweenExpression` as `Function`, are barred. -/
theorem betweenGuarded_on_ambiguous_pairs :
    betweenInLeft.betweenGuarded = false ∧ betweenInRange.betweenGuarded = true ∧
    betweenAsFunction.betweenGuarded = false ∧ betweenOverCall.betweenGuarded = true := by
  decide

theorem isValue_of_isName {s : String} (h : isName s = true) : isValue s = true := by
  simp only [isName, isValue, Bool.and_eq_true, decide_eq_true_eq, List.all_eq_true] at h ⊢
  exact ⟨h.1, fun c hc => by simp [isValueChar, h.2 c hc]⟩

/-- A tree whose values are alphanumeric names is a tree whose values are
alphanumeric names or numeric literals. -/
theorem wellFormed_isValue_of_isName (e : Expression) :
    e.wellFormed isName isOperator = true → e.wellFormed isValue isOperator = true := by
  induction e using Expression_induct with
  | hnil => simp [Expression.wellFormed]
  | hnp k => simp [Expression.wellFormed]
  | hid t v =>
    intro h
    simp only [Expression.wellFormed] at h ⊢
    exact isValue_of_isName h
  | hpre t op r ih =>
    intro h
    simp only [Expression.wellFormed, Bool.and_eq_true] at h ⊢
    exact ⟨h.1, ih h.2⟩
  | hinf t l op r ihl ihr =>
    intro h
    simp only [Expression.wellFormed, Bool.and_eq_true] at h ⊢
    exact ⟨⟨ihl h.1.1, h.1.2⟩, ihr h.2⟩
  | hcall t f as ihf ihas =>
    intro h
    simp only [Expression.wellFormed, Bool.and_eq_true, wellFormedAll_iff] at h ⊢
    exact ⟨ihf h.1, fun a ha => ihas a ha (h.2 a ha)⟩
  | hbtw t l r0 r1 ihl ih0 ih1 =>
    intro h
    simp only [Expression.wellFormed, Bool.and_eq_true] at h ⊢
    exact ⟨⟨ihl h.1.1, ih0 h.1.2⟩, ih1 h.2⟩

/-- C5, amended: among the trees built from `Identifier`, `PrefixExpression`,
`InfixExpression`, `CallExpression` and `BetweenExpression` nodes whose
identifier values are non-empty alphanumeric names or numeric literals and
whose operators are operators of the language, and in which no
`BetweenExpression` is the `Left` of another `BetweenExpression` or the
`Function` of a `CallExpression`, two trees with equal `String()` outputs are
structurally identical, ignoring `Token` fields. -/
theorem String_injective_of_betweenGuarded (e1 e2 : Expression)
    (hw1 : e1.wellFormed isValue isOperator = true) (hg1 : e1.betweenGuarded = true)
    (hw2 : e2.wellFormed isValue isOperator = true) (hg2 : e2.betweenGuarded = true)
    (h : e1.String = e2.String) : e1.eraseTokens = e2.eraseTokens := by
  obtain ⟨s1, hs1⟩ := String_isSome_of_wellFormed _ _ e1 hw1
  obtain ⟨s2, hs2⟩ := String_isSome_of_wellFormed _ _ e2 hw2
  have h1 := String_data_eq_render e1 s1 hs1
  have h2 := String_data_eq_render e2 s2 hs2
  rw [hs1, hs2, Option.some.injEq] at h
  rw [h] at h1
  exact render_injective e1 e2 hw1 hg1 hw2 hg2 (h1.symm.trans h2)

/-- Two trees for `NOT f(a, b) AND c BETWEEN (1.5 BETWEEN -3 AND 2) AND 4 OR
d = e` that differ in their tokens only are in the class, with a
`BetweenExpression` as a `Range` bound and the numeric literals `1.5` and `-3`
as values; they print the same text and are identified. -/
theorem String_injective_of_betweenGuarded_witness :
    sampleTree.wellFormed isValue isOperator = true ∧
    sampleTree.betweenGuarded = true ∧
    sampleTreeRetokened.wellFormed isValue isOperator = true ∧
    sampleTreeRetokened.betweenGuarded = true ∧
    sampleTree.String
      = some "(((NOTf(a, b)) AND c BETWEEN 1.5 BETWEEN -3 AND 2 AND 4) OR (d = e))" ∧
    sampleTree.String = sampleTreeRetokened.String ∧
    sampleTree.eraseTokens = sampleTreeRetokened.eraseTokens :=
  ⟨by decide, by decide, by decide, by decide, by decide, by decide,
    String_injective_of_betweenGuarded sampleTree sampleTreeRetokened
      (by decide) (by decide) (by decide) (by decide) (by decide)⟩

/-! ## Whitespace -/

/-- C9: a tree without a nil node whose identifier values and operators are
non-empty and contain no whitespace prints, and its text is non-empty, does not
begin or end with a space, and has no two consecutive spaces. -/
theorem String_whitespace_normalized (e : Expression)
    (h : e.wellFormed noWhitespace noWhitespace = true) :
    ∃ s, e.String = some s ∧ s ≠ "" ∧ s.data.head? ≠ some ' ' ∧
      s.data.getLast? ≠ some ' ' ∧ ∀ u v : List Char, s.data ≠ u ++ ' ' :: ' ' :: v := by
  obtain ⟨s, hs, ht⟩ := String_tidy e h
  refine ⟨s, hs, ?_, ht.2.1, ht.2.2.1, tidy_no_double ht⟩
  intro he
  exact ht.1 (by rw [he])

/-- The tree of `f(a, b) = c BETWEEN 1 AND 2` satisfies the premise, and its
text `"(f(a, b) = c BETWEEN 1 AND 2)"` the conclusion. -/
theorem String_whitespace_normalized_witness :
    (Expression.InfixExpression ⟨0, "="⟩
        (.CallExpression ⟨2, "("⟩ (.Identifier ⟨1, "f"⟩ "f")
          [.Identifier ⟨1, "a"⟩ "a", .Identifier ⟨1, "b"⟩ "b"])
        "="
        (.BetweenExpression ⟨3, "BETWEEN"⟩ (.Identifier ⟨1, "c"⟩ "c")
          (.Identifier ⟨1, "1"⟩ "1") (.Identifier ⟨1, "2"⟩ "2"))).wellFormed
        noWhitespace noWhitespace = true ∧
    ∃ s, (Expression.InfixExpression ⟨0, "="⟩
        (.CallExpression ⟨2, "("⟩ (.Identifier ⟨1, "f"⟩ "f")
          [.Identifier ⟨1, "a"⟩ "a", .Identifier ⟨1, "b"⟩ "b"])
        "="
        (.BetweenExpression ⟨3, "BETWEEN"⟩ (.Identifier ⟨1, "c"⟩ "c")
          (.Identifier ⟨1, "1"⟩ "1") (.Identifier ⟨1, "2"⟩ "2"))).String = some s ∧
      s ≠ "" ∧ s.data.head? ≠ some ' ' ∧ s.data.getLast? ≠ some ' ' ∧
      ∀ u v : List Char, s.data ≠ u ++ ' ' :: ' ' :: v :=
  ⟨by decide, String_whitespace_normalized _ (by decide)⟩

/-! ## The token literal of the root -/

/-- C11: `TokenLiteral()` of a root with a non-nil `Statement` returns what
`TokenLiteral()` of that `Statement` returns; for an `ExpressionStatement` it is
the `Literal` of the statement's own `Token`, whatever the wrapped expression
is, and so differs from the wrapped expression's token literal whenever that
one differs from the statement's. -/
theorem DynamoExpression_TokenLiteral_statement (de : DynamoExpression)
    (h : de.Statement ≠ Statement.nil) :
    (∃ s, de.TokenLiteral = some s ∧ de.Statement.TokenLiteral = some s) ∧
    (∀ (tok : Token) (e : Expression), de.Statement = Statement.ExpressionStatement tok e →
      de.TokenLiteral = some tok.Literal ∧
      (e.TokenLiteral ≠ some tok.Literal → de.TokenLiteral ≠ e.TokenLiteral)) := by
  obtain ⟨st⟩ := de
  cases st with
  | nil => exact absurd rfl h
  | ExpressionStatement t e0 =>
    refine ⟨⟨t.Literal, rfl, rfl⟩, ?_⟩
    intro tok e hst
    simp only [Statement.ExpressionStatement.injEq] at hst
    obtain ⟨ht, he⟩ := hst
    subst ht
    subst he
    exact ⟨rfl, fun hne heq => hne heq.symm⟩

/-- A root around a statement with token literal `"stmt"` that wraps the
identifier `a` (token literal `"a"`) has token literal `"stmt"`, not `"a"`. -/
theorem DynamoExpression_TokenLiteral_statement_witness :
    (DynamoExpression.mk
        (.ExpressionStatement ⟨4, "stmt"⟩ (.Identifier ⟨1, "a"⟩ "a"))).Statement
      ≠ Statement.nil ∧
    (DynamoExpression.mk
        (.ExpressionStatement ⟨4, "stmt"⟩ (.Identifier ⟨1, "a"⟩ "a"))).TokenLiteral
      = some "stmt" ∧
    (DynamoExpression.mk
        (.ExpressionStatement ⟨4, "stmt"⟩ (.Identifier ⟨1, "a"⟩ "a"))).TokenLiteral
      ≠ (Expression.Identifier ⟨1, "a"⟩ "a").TokenLiteral :=
  ⟨by simp,
   ((DynamoExpression_TokenLiteral_statement
      ⟨.ExpressionStatement ⟨4, "stmt"⟩ (.Identifier ⟨1, "a"⟩ "a")⟩ (by simp)).2
      ⟨4, "stmt"⟩ (.Identifier ⟨1, "a"⟩ "a") rfl).1,
   ((DynamoExpression_TokenLiteral_statement
      ⟨.ExpressionStatement ⟨4, "stmt"⟩ (.Identifier ⟨1, "a"⟩ "a")⟩ (by simp)).2
      ⟨4, "stmt"⟩ (.Identifier ⟨1, "a"⟩ "a") rfl).2 (by decide)⟩

/-! ## Tokens and the text -/

theorem argStrings_eraseTokensAll (as : List Expression)
    (h : ∀ a ∈ as, a.eraseTokens.String = a.String) :
    Expression.argStrings (Expression.eraseTokensAll as) = Expression.argStrings as := by
  induction as with
  | nil => rfl
  | cons a rest ih =>
    simp only [Expression.eraseTokensAll, Expression.argStrings,
      h a (List.mem_cons_self _ _), ih (fun b hb => h b (List.mem_cons_of_mem _ hb))]

/-- Erasing the tokens of a tree does not change what `String()` returns. -/
theorem String_eraseTokens (e : Expression) : e.eraseTokens.String = e.String := by
  induction e using Expression_induct with
  | hnil => rfl
  | hnp k => rfl
  | hid t v => rfl
  | hpre t op r ih => simp only [Expression.eraseTokens, Expression.String, ih]
  | hinf t l op r ihl ihr => simp only [Expression.eraseTokens, Expression.String, ihl, ihr]
  | hcall t f as ihf ihas =>
    simp only [Expression.eraseTokens, Expression.String, ihf,
      argStrings_eraseTokensAll as ihas]
  | hbtw t l r0 r1 ihl ih0 ih1 =>
    simp only [Expression.eraseTokens, Expression.String, ihl, ih0, ih1]

/-- The text of an `ExpressionStatement` does not depend on its token or on the
tokens of the wrapped tree. -/
theorem Statement_String_eraseTokens (t : Token) (e : Expression) :
    (Statement.ExpressionStatement t e).String
      = (Statement.ExpressionStatement ⟨0, ""⟩ e.eraseTokens).String := by
  cases e with
  | nil => rfl
  | nilPointer k => rfl
  | Identifier t2 v => rfl
  | PrefixExpression t2 op r =>
    exact (String_eraseTokens (.PrefixExpression t2 op r)).symm
  | InfixExpression t2 l op r =>
    exact (String_eraseTokens (.InfixExpression t2 l op r)).symm
  | CallExpression t2 f as =>
    exact (String_eraseTokens (.CallExpression t2 f as)).symm
  | BetweenExpression t2 l r0 r1 =>
    exact (String_eraseTokens (.BetweenExpression t2 l r0 r1)).symm

/-- C12: two trees that are identical except for the `Token` values of their
nodes have the same `String()`, also under a root and statement with different
tokens; and an `Identifier` prints its `Value`, whatever its `Token.Literal`. -/
theorem String_token_independent (e1 e2 : Expression)
    (h : e1.eraseTokens = e2.eraseTokens) :
    e1.String = e2.String ∧
    (∀ t1 t2 : Token,
      (DynamoExpression.mk (.ExpressionStatement t1 e1)).String
        = (DynamoExpression.mk (.ExpressionStatement t2 e2)).String) ∧
    (∀ (tok : Token) (v : String), (Expression.Identifier tok v).String = some v) := by
  refine ⟨?_, ?_, fun _ _ => rfl⟩
  · rw [← String_eraseTokens e1, ← String_eraseTokens e2, h]
  · intro t1 t2
    simp only [DynamoExpression.String]
    rw [Statement_String_eraseTokens t1 e1, Statement_String_eraseTokens t2 e2, h]

/-- The call `f(a)` with two different sets of tokens, one of them with an
identifier whose token literal `"zzz"` is not its value `"a"`: the same tree up
to tokens, and the same text `"f(a)"`. -/
theorem String_token_independent_witness :
    (Expression.CallExpression ⟨2, "("⟩ (.Identifier ⟨1, "f"⟩ "f")
        [.Identifier ⟨1, "a"⟩ "a"]).eraseTokens
      = (Expression.CallExpression ⟨9, "call"⟩ (.Identifier ⟨8, "g"⟩ "f")
        [.Identifier ⟨7, "zzz"⟩ "a"]).eraseTokens ∧
    (Expression.CallExpression ⟨2, "("⟩ (.Identifier ⟨1, "f"⟩ "f")
        [.Identifier ⟨1, "a"⟩ "a"]).String = some "f(a)" ∧
    (Expression.CallExpression ⟨2, "("⟩ (.Identifier ⟨1, "f"⟩ "f")
        [.Identifier ⟨1, "a"⟩ "a"]).String
      = (Expression.CallExpression ⟨9, "call"⟩ (.Identifier ⟨8, "g"⟩ "f")
        [.Identifier ⟨7, "zzz"⟩ "a"]).String :=
  ⟨rfl, rfl,
    (String_token_independent
      (.CallExpression ⟨2, "("⟩ (.Identifier ⟨1, "f"⟩ "f") [.Identifier ⟨1, "a"⟩ "a"])
      (.CallExpression ⟨9, "call"⟩ (.Identifier ⟨8, "g"⟩ "f") [.Identifier ⟨7, "zzz"⟩ "a"])
      rfl).1⟩

/-! ## Balanced parentheses -/

theorem closed_noSep_of_noParen {v : String} (h : noParen v = true) :
    Closed noSep v.data := by
  simp only [noParen, List.all_eq_true, Bool.and_eq_true, bne_iff_ne, ne_eq] at h
  exact scan_plain noSep v.data 0 (fun c hc => ⟨(h c hc).1, (h c hc).2, fun _ => rfl⟩)

/-- The text of a tree without parentheses in its values and operators is
closed for the scan without separators. -/
theorem closed_render_of_noParen (e : Expression) :
    e.wellFormed noParen noParen = true → Closed noSep e.render := by
  have hB : Closed noSep "BETWEEN".data := by unfold Closed; decide
  have hA : Closed noSep "AND".data := by unfold Closed; decide
  induction e using Expression_induct with
  | hnil => simp [Expression.wellFormed]
  | hnp k => simp [Expression.wellFormed]
  | hid t v => intro hw; exact closed_noSep_of_noParen hw
  | hpre t op r ih =>
    intro hw
    simp only [Expression.wellFormed, Bool.and_eq_true] at hw
    rw [render_prefixExpression]
    exact closed_parens noSep (closed_append (closed_noSep_of_noParen hw.1) (ih hw.2)) rfl
  | hinf t l op r ihl ihr =>
    intro hw
    simp only [Expression.wellFormed, Bool.and_eq_true] at hw
    rw [render_infixExpression]
    exact closed_parens noSep
      (closed_append (ihl hw.1.1) (closed_space noSep rfl
        (closed_append (closed_noSep_of_noParen hw.1.2) (closed_space noSep rfl (ihr hw.2)))))
      rfl
  | hcall t f as ihf ihas =>
    intro hw
    simp only [Expression.wellFormed, Bool.and_eq_true, wellFormedAll_iff] at hw
    have hargs := closed_renderArgs as (fun a ha => ihas a ha (hw.2 a ha))
    exact closed_append (ihf hw.1) (closed_parens noSep hargs rfl)
  | hbtw t l r0 r1 ihl ih0 ih1 =>
    intro hw
    simp only [Expression.wellFormed, Bool.and_eq_true] at hw
    exact closed_append (ihl hw.1.1) (closed_space noSep rfl (closed_append hB
      (closed_space noSep rfl (closed_append (ih0 hw.1.2) (closed_space noSep rfl
        (closed_append hA (closed_space noSep rfl (ih1 hw.2))))))))

/-- What the scan without separators computes: the depth after the text is the
depth before it plus the `(` and minus the `)` of the text, and no beginning of
the text has more `)` than `(` and the depth before it together. -/
theorem scan_counts (l : List Char) :
    ∀ d k : Nat, scan noSep d l = some k →
      l.count '(' + d = l.count ')' + k ∧
      ∀ p q : List Char, l = p ++ q → p.count ')' ≤ p.count '(' + d := by
  induction l with
  | nil =>
    intro d k h
    simp only [scan, Option.some.injEq] at h
    refine ⟨by simp [h], ?_⟩
    intro p q hpq
    have hp : p = [] := (List.append_eq_nil.1 hpq.symm).1
    simp [hp]
  | cons c cs ih =>
    intro d k h
    simp only [scan, noSep, Bool.false_eq_true, and_false, if_false] at h
    by_cases hc1 : c = '('
    · subst hc1
      simp only [if_true] at h
      obtain ⟨h1, h2⟩ := ih (d + 1) k h
      refine ⟨by simp [List.count_cons]; omega, ?_⟩
      intro p q hpq
      cases p with
      | nil => simp
      | cons x p =>
        simp only [List.cons_append, List.cons.injEq] at hpq
        have := h2 p q hpq.2
        rw [← hpq.1]
        simp [List.count_cons]
        omega
    · rw [if_neg hc1] at h
      by_cases hc2 : c = ')'
      · subst hc2
        simp only [if_true] at h
        cases d with
        | zero => simp at h
        | succ j =>
          simp only at h
          obtain ⟨h1, h2⟩ := ih j k h
          refine ⟨by simp [List.count_cons]; omega, ?_⟩
          intro p q hpq
          cases p with
          | nil => simp
          | cons x p =>
            simp only [List.cons_append, List.cons.injEq] at hpq
            have := h2 p q hpq.2
            rw [← hpq.1]
            simp [List.count_cons]
            omega
      · rw [if_neg hc2] at h
        obtain ⟨h1, h2⟩ := ih d k h
        refine ⟨by simp [List.count_cons, hc1, hc2]; omega, ?_⟩
        intro p q hpq
        cases p with
        | nil => simp
        | cons x p =>
          simp only [List.cons_append, List.cons.injEq] at hpq
          have := h2 p q hpq.2
          rw [← hpq.1]
          simp [List.count_cons, hc1, hc2]
          omega

/-- C13: a tree without a nil node whose identifier values and operators
contain no `(` and no `)` prints, and its text has as many `(` as `)` and no
beginning of it has more `)` than `(`. -/
theorem String_balanced_parentheses (e : Expression)
    (h : e.wellFormed noParen noParen = true) :
    ∃ s, e.String = some s ∧ s.data.count '(' = s.data.count ')' ∧
      ∀ p q : List Char, s.data = p ++ q → p.count ')' ≤ p.count '(' := by
  obtain ⟨s, hs⟩ := String_isSome_of_wellFormed _ _ e h
  have hr := String_data_eq_render e s hs
  have hc := closed_render_of_noParen e h
  rw [← hr] at hc
  obtain ⟨h1, h2⟩ := scan_counts s.data 0 0 hc
  exact ⟨s, hs, by simpa using h1, fun p q hpq => by simpa using h2 p q hpq⟩

/-- The tree `nestedCalls` satisfies the premise, prints as
`"(NOTa)(b BETWEEN c AND d, ( + x y))()"`, and that text is balanced. -/
theorem String_balanced_parentheses_witness :
    nestedCalls.wellFormed noParen noParen = true ∧
    nestedCalls.String = some "(NOTa)(b BETWEEN c AND d, ( + x y))()" ∧
    ∃ s, nestedCalls.String = some s ∧ s.data.count '(' = s.data.count ')' ∧
      ∀ p q : List Char, s.data = p ++ q → p.count ')' ≤ p.count '(' :=
  ⟨by decide, by decide, String_balanced_parentheses nestedCalls (by decide)⟩

end language
